import Mathlib

/-!
Shallow embedding of the Stylo tournament engine (`src/stylo_bot.py`): the persisted
state (event / entrant / match / voter / ticket tables), the vote handler
`MatchView._vote`, the scheduler's entry-close and voting-end transitions, and
`advance_to_next_round` with its `_pick_leftover_opponent` helper.  Timestamps are
naturals (ISO-8601 strings of a fixed format compare like the instants they denote),
SQL updates are maps over row lists, and the two `random.shuffle` calls are supplied
as an explicit `order` argument (theorems quantify over permutations of the pool).
-/

namespace Stylo

/-- Which side of a match a vote is for (the `side` column of the `voter` table). -/
inductive Side where
  | L
  | R
deriving Repr, DecidableEq

/-- A row of the `match` table (the columns the engine logic reads and writes). -/
structure MatchRow where
  id : Nat
  round_index : Nat
  left_id : Nat
  right_id : Nat
  end_utc : Nat
  left_votes : Nat
  right_votes : Nat
  winner_id : Option Nat
deriving Repr, DecidableEq

/-- A row of the `voter` table; its primary key is (match_id, user_id). -/
structure VoterRow where
  match_id : Nat
  user_id : Nat
  side : Side
deriving Repr, DecidableEq

/-- A row of the `entrant` table (id is the AUTOINCREMENT primary key, so ≥ 1). -/
structure Entrant where
  id : Nat
  user_id : Nat
  image_url : Option String
deriving Repr, DecidableEq

/-- A row of the `ticket` table: the private upload channel of one entrant. -/
structure TicketRow where
  entrant_id : Nat
  channel_id : Nat
deriving Repr, DecidableEq

/-- Tournament phase: the `event.state` column, 'entry' | 'voting' | 'closed'. -/
inductive EvState where
  | entry
  | voting
  | closed
deriving Repr, DecidableEq

/-- The `event` row fields the engine logic uses.  The code keeps a single
`entry_end_utc` column and reuses it as the current round's deadline once voting
starts; `vote_seconds` is the per-round voting window. -/
structure EventRow where
  state : EvState
  entry_end_utc : Nat
  vote_seconds : Nat
  round_index : Nat
deriving Repr, DecidableEq

/-- The persisted state of one guild's tournament.  `champion` records the entrant
announced in the champion branch of `advance_to_next_round` (the code has no
champion column; the announcement is the observable effect).  `nextMatchId` models
the AUTOINCREMENT id for `INSERT INTO match`. -/
structure GuildState where
  event : EventRow
  entrants : List Entrant
  matchRows : List MatchRow
  voters : List VoterRow
  tickets : List TicketRow
  nextMatchId : Nat
  champion : Option Nat
deriving Repr, DecidableEq

/-- Result variants of the vote handler. -/
inductive VoteResult where
  | accepted
  | alreadyVoted
  | matchClosed
  | notFound
deriving Repr, DecidableEq

/-- SQL `UPDATE match SET ... WHERE id=?`, as a map over the row list. -/
def updateMatch (ms : List MatchRow) (mid : Nat) (f : MatchRow → MatchRow) :
    List MatchRow :=
  ms.map (fun m => if m.id = mid then f m else m)

/-- One side's counter of a match row. -/
def sideVotes (m : MatchRow) : Side → Nat
  | .L => m.left_votes
  | .R => m.right_votes

/-- Increment the counter of the given side (`left_votes = left_votes + 1` resp.
`right_votes = right_votes + 1`). -/
def bumpSide (m : MatchRow) : Side → MatchRow
  | .L => { m with left_votes := m.left_votes + 1 }
  | .R => { m with right_votes := m.right_votes + 1 }

/-- The vote records of match `mid` (the `voter` rows keyed by that match). -/
def voteRecords (g : GuildState) (mid : Nat) : List VoterRow :=
  g.voters.filter (fun v => v.match_id == mid)

/-- `MatchView._vote`: read the match row; reject with `matchClosed` when `now` is at
or past the persisted `end_utc`; `INSERT INTO voter` — the primary key
(match_id, user_id) makes a duplicate insert fail, which the handler reports as
`alreadyVoted` without touching anything; on success atomically increment the chosen
side's counter. -/
def castVote (g : GuildState) (mid uid : Nat) (side : Side) (now : Nat) :
    GuildState × VoteResult :=
  match g.matchRows.find? (fun m => m.id == mid) with
  | none => (g, .notFound)
  | some m =>
    if m.end_utc ≤ now then (g, .matchClosed)
    else if g.voters.any (fun v => v.match_id == mid && v.user_id == uid) then
      (g, .alreadyVoted)
    else
      ({ g with voters := g.voters ++ [⟨mid, uid, side⟩],
                matchRows := updateMatch g.matchRows mid (fun x => bumpSide x side) },
       .accepted)

/-- Resolution of one match at round end (the body of the scheduler's per-match loop):
a tie — including 0-0 — resets both counters, clears the winner and grants a fresh
deadline `now + vote_seconds`; otherwise the side with strictly more votes wins and
`end_utc` is set to the decision time `now`.  (The caller separately deletes the
`voter` rows of tied matches.) -/
def resolveMatch (m : MatchRow) (now vs : Nat) : MatchRow :=
  if m.left_votes = m.right_votes then
    { m with left_votes := 0, right_votes := 0, end_utc := now + vs, winner_id := none }
  else
    { m with winner_id := some (if m.right_votes < m.left_votes then m.left_id else m.right_id),
             end_utc := now }

/-- Matches of round `r` (SELECT ... WHERE round_index=?). -/
def roundMatches (ms : List MatchRow) (r : Nat) : List MatchRow :=
  ms.filter (fun m => m.round_index == r)

/-- Undecided matches of round `r` (… AND winner_id IS NULL). -/
def undecided (ms : List MatchRow) (r : Nat) : List MatchRow :=
  ms.filter (fun m => m.round_index == r && m.winner_id.isNone)

/-- Ids of the undecided matches of round `r` whose tallies are tied — the matches the
scheduler reopens, deleting their `voter` rows. -/
def tiedIds (ms : List MatchRow) (r : Nat) : List Nat :=
  (undecided ms r).filterMap
    (fun m => if m.left_votes = m.right_votes then some m.id else none)

/-- One pass of the scheduler's VOTING-END per-match loop over the current round:
every undecided match of the round is resolved in place and the `voter` rows of the
tied (reopened) ones are deleted.  The Bool is `any_revote`. -/
def resolveRound (g : GuildState) (now : Nat) : GuildState × Bool :=
  let r := g.event.round_index
  let vs := g.event.vote_seconds
  let tied := tiedIds g.matchRows r
  ({ g with
      matchRows := g.matchRows.map (fun m =>
        if m.round_index == r && m.winner_id.isNone then resolveMatch m now vs else m),
      voters := g.voters.filter (fun v => !(tied.contains v.match_id)) },
   !tied.isEmpty)

/-- SELECT MAX(end_utc) FROM match WHERE … AND round_index=? (over naturals; 0 when
the round has no matches, in which case the code skips the update). -/
def maxEnd (ms : List MatchRow) (r : Nat) : Nat :=
  ((roundMatches ms r).map MatchRow.end_utc).foldl max 0

/-- Python's `lst.sort(key=lambda t: (t[1], -t[0]), reverse=True)` followed by
`lst[0]`: the first pair maximal by vote count, ties broken by lowest id. -/
def bestLoser (hd : Nat × Nat) (tl : List (Nat × Nat)) : Nat × Nat :=
  tl.foldl (fun b t => if b.2 < t.2 ∨ (t.2 = b.2 ∧ t.1 < b.1) then t else b) hd

/-- Losers of the decided matches of a round, with their losing vote counts, in row
order (the list `losers_with_votes` both callers build). -/
def losersWithVotes (ms : List MatchRow) : List (Nat × Nat) :=
  ms.filterMap (fun m =>
    match m.winner_id with
    | none => none
    | some w =>
      if w = m.left_id then some (m.right_id, m.right_votes)
      else some (m.left_id, m.left_votes))

/-- Losers of the decided matches with the total votes of their match
(`losers_totals` in `_pick_leftover_opponent`). -/
def losersTotals (ms : List MatchRow) : List (Nat × Nat) :=
  ms.filterMap (fun m =>
    match m.winner_id with
    | none => none
    | some w =>
      if w = m.left_id then some (m.right_id, m.left_votes + m.right_votes)
      else some (m.left_id, m.left_votes + m.right_votes))

/-- `_pick_leftover_opponent`: an opponent for the leftover, or `none` for a bye.
Priority 1: among the supplied losers, highest losing vote count (ties: lowest id).
Priority 2 (only when that list is empty): highest total match votes among losers.
Priority 3: lowest loser id.  Priority 4: `none`. -/
def pickLeftoverOpponent (curMs : List MatchRow) (lwv : List (Nat × Nat)) :
    Option Nat :=
  match lwv with
  | t :: ts => some (bestLoser t ts).1
  | [] =>
    match losersTotals curMs with
    | t :: ts => some (bestLoser t ts).1
    | [] =>
      match (losersTotals curMs).map Prod.fst with
      | [] => none
      | a :: as => some (as.foldl min a)

/-- Consecutive pairing: `for i in range(0, len, 2): if i + 1 < len: pair`. -/
def pairConsec {α : Type} : List α → List (α × α)
  | [] => []
  | [_] => []
  | a :: b :: rest => (a, b) :: pairConsec rest

/-- Eligibility check `image_url IS NOT NULL AND TRIM(image_url) <> ''`: SQLite's
default TRIM strips space characters, so the trimmed value is non-empty exactly when
some character of the url is not a space. -/
def hasImage (e : Entrant) : Bool :=
  match e.image_url with
  | none => false
  | some s => s.data.any (fun c => !(c == ' '))

/-- The pool `advance_to_next_round` mirrors from the scheduler's entry-close
selection: entrants with an image when at least two have one, else every entrant when
at least two exist, else just those with an image. -/
def r1Pool (entrants : List Entrant) : List Nat :=
  let withImage := (entrants.filter hasImage).map Entrant.id
  if 2 ≤ withImage.length then withImage
  else if 2 ≤ entrants.length then entrants.map Entrant.id
  else withImage

/-- Every id fighting in one of the given matches (`fought_ids`). -/
def foughtIds (ms : List MatchRow) : List Nat :=
  ms.foldr (fun m s => m.left_id :: m.right_id :: s) []

/-- Round-1 leftovers: `pool - set(fought_ids) - set(all_winners_this_round)`. -/
def r1Leftovers (g : GuildState) : List Nat :=
  let ms := roundMatches g.matchRows 1
  let winners := ms.filterMap MatchRow.winner_id
  (r1Pool g.entrants).filter
    (fun i => !((foughtIds ms).contains i) && !(winners.contains i))

/-- INSERT INTO match(guild_id, round_index, left_id, right_id, end_utc): fresh id,
zero counters, no winner. -/
def insertMatch (g : GuildState) (r lid rid endt : Nat) : GuildState :=
  { g with matchRows := g.matchRows ++ [⟨g.nextMatchId, r, lid, rid, endt, 0, 0, none⟩],
           nextMatchId := g.nextMatchId + 1 }

/-- Extend the event to a new round-deadline and keep (or re-enter) the voting state
(`UPDATE event SET entry_end_utc=?, state='voting'`). -/
def extendEvent (g : GuildState) (endt : Nat) : GuildState :=
  { g with event := { g.event with entry_end_utc := endt, state := .voting } }

/-- Final stage of `advance_to_next_round`: with at least two winners, pair the
shuffled winners pool (`order`) consecutively into round `round_index + 1` and bump
the round; otherwise close the event ("nothing to advance"). -/
def buildNext (g : GuildState) (now : Nat) (order : List Nat) (ws : List Nat) :
    GuildState :=
  if 2 ≤ ws.length then
    let newRound := g.event.round_index + 1
    let endt := now + g.event.vote_seconds
    let g1 := (pairConsec order).foldl
      (fun s p => insertMatch s newRound p.1 p.2 endt) g
    { g1 with event := { g1.event with
                           round_index := newRound,
                           entry_end_utc := endt,
                           state := .voting } }
  else { g with event := { g.event with state := .closed } }

/-- Tail of `advance_to_next_round` once the round-1 leftover handling fixed the
winners list: champion declaration, the odd-winners special match in the current round
(the leftover winner is `sorted(all_winners)[-1]`, the maximum id), building the next
round from the shuffled pool, or closing with nothing to advance. -/
def advanceCore (g : GuildState) (now : Nat) (order : List Nat)
    (winners : List Nat) (leftoverCount : Nat) : GuildState :=
  if winners.length = 1 ∧ leftoverCount = 0 then
    { g with event := { g.event with state := .closed },
             champion := some (winners.headD 0) }
  else if 1 ≤ winners.length ∧ winners.length % 2 = 1 then
    let curMs := roundMatches g.matchRows g.event.round_index
    let leftoverWinner := winners.foldl max 0
    match pickLeftoverOpponent curMs (losersWithVotes curMs) with
    | some opp =>
      extendEvent
        (insertMatch g g.event.round_index leftoverWinner opp
          (now + g.event.vote_seconds))
        (now + g.event.vote_seconds)
    | none =>
      buildNext g now order
        ((winners.filter (fun w => w ≠ leftoverWinner)) ++ [leftoverWinner])
  else buildNext g now order winners

/-- `advance_to_next_round` (database effects only).  `order` stands for the result of
`random.shuffle` on the winners pool when a next round is built; theorems constrain it
to a permutation of that pool. -/
def advanceStep (g : GuildState) (now : Nat) (order : List Nat) : GuildState :=
  let r := g.event.round_index
  let winners0 := (roundMatches g.matchRows r).filterMap MatchRow.winner_id
  if r = 1 then
    let curMs := roundMatches g.matchRows 1
    let leftovers := r1Leftovers g
    if leftovers.length = 1 then
      match pickLeftoverOpponent curMs (losersWithVotes curMs) with
      | some opp =>
        extendEvent
          (insertMatch g 1 (leftovers.headD 0) opp (now + g.event.vote_seconds))
          (now + g.event.vote_seconds)
      | none => advanceCore g now order (winners0 ++ [leftovers.headD 0]) 0
    else advanceCore g now order winners0 leftovers.length
  else advanceCore g now order winners0 0

/-- The scheduler's VOTING-END branch for one event, at a tick time `now`: nothing
before the round deadline; otherwise resolve every undecided match of the round; if
any tied match was reopened, extend the round deadline to the maximum `end_utc` of the
round's matches and stop; else advance. -/
def votingStep (g : GuildState) (now : Nat) (order : List Nat) : GuildState :=
  if g.event.state = .voting then
    if now < g.event.entry_end_utc then g
    else
      let gr := resolveRound g now
      if gr.2 then
        if (roundMatches gr.1.matchRows gr.1.event.round_index).isEmpty then gr.1
        else extendEvent gr.1 (maxEnd gr.1.matchRows gr.1.event.round_index)
      else advanceStep gr.1 now order
  else g

/-- The scheduler's ENTRY → VOTING branch for one event, at a tick time `now`:
nothing before the entry deadline; close the event when fewer than two entrants have
images and fewer than two entrants exist at all; otherwise pair the (shuffled) pool
consecutively into round 1 and overwrite `entry_end_utc` with the round deadline
`now + vote_seconds`.  `order` stands for `random.shuffle(entrants)`. -/
def entryCloseStep (g : GuildState) (now : Nat) (order : List Nat) : GuildState :=
  if g.event.state = .entry then
    if now < g.event.entry_end_utc then g
    else
      let eligible := g.entrants.filter hasImage
      if eligible.length < 2 ∧ g.entrants.length < 2 then
        { g with event := { g.event with state := .closed } }
      else
        let endt := now + g.event.vote_seconds
        let g1 := (pairConsec order).foldl
          (fun s p => insertMatch s 1 p.1 p.2 endt) g
        { g1 with event := { g1.event with
                               state := .voting,
                               round_index := 1,
                               entry_end_utc := endt } }
  else g

/-- The `on_message` image-capture path: when the message's channel is some entrant's
ticket channel, overwrite that entrant's `image_url` with the re-hosted attachment
url.  The handler performs no check of the event state. -/
def captureImage (g : GuildState) (channel : Nat) (url : String) : GuildState :=
  match g.tickets.find? (fun t => t.channel_id == channel) with
  | none => g
  | some t =>
    { g with entrants := g.entrants.map (fun e =>
        if e.id = t.entrant_id then { e with image_url := some url } else e) }

/-- `/stylo_set_round_time_left`: while the event is in the voting state, overwrite
`entry_end_utc` (serving as the round deadline) with `now + max 1 minutes` minutes. -/
def setRoundTimeLeft (g : GuildState) (now minutes : Nat) : GuildState :=
  if g.event.state = .voting then
    { g with event := { g.event with entry_end_utc := now + (max 1 minutes) * 60 } }
  else g

/-- Follows the spec's words for the strongest-loser rule, to be compared with
`pickLeftoverOpponent`: among all participants who lost a decided match this round
(given as (id, losing vote count, total votes of their match)), the one with the
highest losing vote count; ties broken by highest total votes in their match;
remaining ties broken by lowest participant id. -/
def specStrongestLoser (losers : List (Nat × Nat × Nat)) : Option Nat :=
  match losers with
  | [] => none
  | t :: ts =>
    some (ts.foldl (fun b x =>
      if b.2.1 < x.2.1 ∨
         (x.2.1 = b.2.1 ∧ (b.2.2 < x.2.2 ∨ (x.2.2 = b.2.2 ∧ x.1 < b.1))) then x else b)
      t).1

/-- The loser data the spec's rule consumes, read off the decided matches of a round:
(loser id, losing vote count, total votes of the match), in row order. -/
def specLosers (ms : List MatchRow) : List (Nat × Nat × Nat) :=
  ms.filterMap (fun m =>
    match m.winner_id with
    | none => none
    | some w =>
      if w = m.left_id then some (m.right_id, m.right_votes, m.left_votes + m.right_votes)
      else some (m.left_id, m.left_votes, m.left_votes + m.right_votes))

/-! Helper lemmas. -/

theorem bumpSide_id (m : MatchRow) (s : Side) : (bumpSide m s).id = m.id := by
  cases s <;> rfl

theorem bumpSide_end (m : MatchRow) (s : Side) : (bumpSide m s).end_utc = m.end_utc := by
  cases s <;> rfl

theorem find?_updateMatch (ms : List MatchRow) (mid : Nat) (f : MatchRow → MatchRow)
    (hf : ∀ x, (f x).id = x.id) (m : MatchRow)
    (h : ms.find? (fun x => x.id == mid) = some m) :
    (updateMatch ms mid f).find? (fun x => x.id == mid) = some (f m) := by
  induction ms with
  | nil => simp [List.find?] at h
  | cons a as ih =>
    by_cases ha : a.id = mid
    · rw [List.find?_cons_of_pos _ (by simpa using ha)] at h
      obtain rfl : a = m := by injection h
      simp only [updateMatch, List.map_cons, if_pos ha]
      exact List.find?_cons_of_pos _ (by simpa using (hf a).trans ha)
    · rw [List.find?_cons_of_neg _ (by simpa using ha)] at h
      simp only [updateMatch, List.map_cons, if_neg ha]
      rw [List.find?_cons_of_neg _ (by simpa using ha)]
      exact ih h

/-- C1: for every match m and voter v, the first CastVote(m, v, side) that is accepted
inserts exactly one vote record and increments only the chosen side's counter by
exactly one; any subsequent CastVote(m, v, _) — issued while the match is still open —
returns AlreadyVoted and leaves both counters and the set of vote records for m
unchanged, so two calls with the same (m, v) yield exactly one counted vote. -/
theorem vote_idempotence
    (g : GuildState) (m : MatchRow) (uid : Nat) (side side2 : Side) (now now2 : Nat)
    (hfind : g.matchRows.find? (fun x => x.id == m.id) = some m)
    (hnow : now < m.end_utc)
    (hnew : g.voters.any (fun v => v.match_id == m.id && v.user_id == uid) = false)
    (hnow2 : now2 < m.end_utc) :
    (castVote g m.id uid side now).2 = .accepted ∧
    voteRecords (castVote g m.id uid side now).1 m.id =
      voteRecords g m.id ++ [⟨m.id, uid, side⟩] ∧
    (castVote g m.id uid side now).1.matchRows.find? (fun x => x.id == m.id) =
      some (bumpSide m side) ∧
    sideVotes (bumpSide m side) side = sideVotes m side + 1 ∧
    (∀ s, s ≠ side → sideVotes (bumpSide m side) s = sideVotes m s) ∧
    castVote (castVote g m.id uid side now).1 m.id uid side2 now2 =
      ((castVote g m.id uid side now).1, .alreadyVoted) := by
  have hle : ¬ m.end_utc ≤ now := Nat.not_le.mpr hnow
  have key : castVote g m.id uid side now =
      ({ g with voters := g.voters ++ [⟨m.id, uid, side⟩],
                matchRows := updateMatch g.matchRows m.id (fun x => bumpSide x side) },
       .accepted) := by
    simp [castVote, hfind, if_neg hle, hnew]
  have hfind2 : (updateMatch g.matchRows m.id fun x => bumpSide x side).find?
      (fun x => x.id == m.id) = some (bumpSide m side) :=
    find?_updateMatch g.matchRows m.id _ (fun x => bumpSide_id x side) m hfind
  refine ⟨by rw [key], ?_, by rw [key]; exact hfind2, ?_, ?_, ?_⟩
  · rw [key]
    simp [voteRecords, List.filter_append]
  · cases side <;> rfl
  · intro s hs
    cases side <;> cases s <;> first | rfl | exact absurd rfl hs
  · rw [key]
    have hdup : ((g.voters ++ [(⟨m.id, uid, side⟩ : VoterRow)]).any
        fun v => v.match_id == m.id && v.user_id == uid) = true := by
      simp
    simp [castVote, hfind2, bumpSide_end, if_neg (Nat.not_le.mpr hnow2), hdup]

/-- Concrete match and state for the vote-idempotence witness. -/
def mW1 : MatchRow := ⟨1, 1, 10, 11, 100, 0, 0, none⟩

/-- One open match, no votes yet. -/
def gW1 : GuildState := ⟨⟨.voting, 100, 60, 1⟩, [], [mW1], [], [], 2, none⟩

/-- Witness for `vote_idempotence` at a one-match, no-voters state. -/
theorem vote_idempotence_witness :
    gW1.matchRows.find? (fun x => x.id == mW1.id) = some mW1 ∧
    (7 : Nat) < mW1.end_utc ∧
    gW1.voters.any (fun v => v.match_id == mW1.id && v.user_id == 42) = false ∧
    (9 : Nat) < mW1.end_utc ∧
    ((castVote gW1 mW1.id 42 .L 7).2 = .accepted ∧
     voteRecords (castVote gW1 mW1.id 42 .L 7).1 mW1.id =
       voteRecords gW1 mW1.id ++ [⟨mW1.id, 42, .L⟩] ∧
     (castVote gW1 mW1.id 42 .L 7).1.matchRows.find? (fun x => x.id == mW1.id) =
       some (bumpSide mW1 .L) ∧
     sideVotes (bumpSide mW1 .L) .L = sideVotes mW1 .L + 1 ∧
     (∀ s, s ≠ Side.L → sideVotes (bumpSide mW1 .L) s = sideVotes mW1 s) ∧
     castVote (castVote gW1 mW1.id 42 .L 7).1 mW1.id 42 .R 9 =
       ((castVote gW1 mW1.id 42 .L 7).1, .alreadyVoted)) :=
  ⟨by decide, by decide, by decide, by decide,
   vote_idempotence gW1 mW1 42 .L .R 7 9 (by decide) (by decide) (by decide) (by decide)⟩

/-- C10: deciding a match sets its persisted end time to the decision time and records
the winner (the side with strictly more votes); the vote handler rejects any vote at
or after the persisted end time and leaves the state untouched, so a decided match's
counters and vote records never change again. -/
theorem decided_match_frozen
    (m : MatchRow) (now vs : Nat) (hne : m.left_votes ≠ m.right_votes) :
    (resolveMatch m now vs).end_utc = now ∧
    (resolveMatch m now vs).winner_id =
      some (if m.right_votes < m.left_votes then m.left_id else m.right_id) ∧
    ∀ (g : GuildState) (uid : Nat) (side : Side) (t : Nat), now ≤ t →
      g.matchRows.find? (fun x => x.id == m.id) = some (resolveMatch m now vs) →
      castVote g m.id uid side t = (g, .matchClosed) := by
  have hend : (resolveMatch m now vs).end_utc = now := by
    simp [resolveMatch, if_neg hne]
  refine ⟨hend, by simp [resolveMatch, if_neg hne], ?_⟩
  intro g uid side t ht hfind
  simp only [castVote, hfind, hend, if_pos ht]

/-- Concrete 3-1 match for the decided-match witness. -/
def mW10 : MatchRow := ⟨1, 1, 10, 11, 100, 3, 1, none⟩

/-- State holding `mW10` after its decision at time 100. -/
def gW10 : GuildState := ⟨⟨.voting, 100, 60, 1⟩, [], [resolveMatch mW10 100 60], [], [], 2, none⟩

/-- Witness for `decided_match_frozen` at a 3-1 match. -/
theorem decided_match_frozen_witness :
    mW10.left_votes ≠ mW10.right_votes ∧
    ((resolveMatch mW10 100 60).end_utc = 100 ∧
     (resolveMatch mW10 100 60).winner_id =
       some (if mW10.right_votes < mW10.left_votes then mW10.left_id else mW10.right_id) ∧
     ∀ (g2 : GuildState) (uid : Nat) (side : Side) (t : Nat), 100 ≤ t →
       g2.matchRows.find? (fun x => x.id == mW10.id) = some (resolveMatch mW10 100 60) →
       castVote g2 mW10.id uid side t = (g2, .matchClosed)) ∧
    castVote gW10 mW10.id 42 .L 150 = (gW10, .matchClosed) := by
  refine ⟨by decide, decided_match_frozen mW10 100 60 (by decide), ?_⟩
  exact (decided_match_frozen mW10 100 60 (by decide)).2.2 gW10 42 .L 150 (by decide) (by decide)

theorem resolveMatch_id (m : MatchRow) (now vs : Nat) :
    (resolveMatch m now vs).id = m.id := by
  unfold resolveMatch; split <;> rfl

theorem resolveMatch_round (m : MatchRow) (now vs : Nat) :
    (resolveMatch m now vs).round_index = m.round_index := by
  unfold resolveMatch; split <;> rfl

theorem resolveRound_fst_matchRows (g : GuildState) (now : Nat) :
    (resolveRound g now).1.matchRows = g.matchRows.map (fun m =>
      if m.round_index == g.event.round_index && m.winner_id.isNone
      then resolveMatch m now g.event.vote_seconds else m) := rfl

theorem resolveRound_fst_voters (g : GuildState) (now : Nat) :
    (resolveRound g now).1.voters = g.voters.filter
      (fun v => !((tiedIds g.matchRows g.event.round_index).contains v.match_id)) := rfl

theorem resolveRound_fst_event (g : GuildState) (now : Nat) :
    (resolveRound g now).1.event = g.event := rfl

theorem resolveRound_fst_champion (g : GuildState) (now : Nat) :
    (resolveRound g now).1.champion = g.champion := rfl

theorem resolveRound_snd (g : GuildState) (now : Nat) :
    (resolveRound g now).2 = !(tiedIds g.matchRows g.event.round_index).isEmpty := rfl

/-- C2: when a round is resolved after its deadline and some undecided match is tied,
(i) every undecided tied match of the round — including 0-0 — is reopened with both
counters reset to 0, its vote records deleted, a fresh deadline `now + voteWindow` and
no winner; (ii) a match is decided this invocation only when its tallies differ;
(iii) the tournament stays in the same round in the voting state, no champion is
declared and no match is created; (iv) the round deadline becomes the maximum of the
round's match deadlines. -/
theorem tie_reopens (g : GuildState) (now : Nat) (order : List Nat)
    (hst : g.event.state = .voting)
    (hnow : g.event.entry_end_utc ≤ now)
    (htie : tiedIds g.matchRows g.event.round_index ≠ []) :
    (∀ m ∈ g.matchRows, m.round_index = g.event.round_index → m.winner_id = none →
        m.left_votes = m.right_votes →
        ∃ m1 ∈ (votingStep g now order).matchRows, m1.id = m.id ∧
          m1.winner_id = none ∧ m1.left_votes = 0 ∧ m1.right_votes = 0 ∧
          m1.end_utc = now + g.event.vote_seconds ∧
          voteRecords (votingStep g now order) m.id = []) ∧
    (∀ m1 ∈ (votingStep g now order).matchRows,
        m1.round_index = g.event.round_index → m1.winner_id ≠ none →
        m1 ∈ g.matchRows ∨
        ∃ m ∈ g.matchRows, m.winner_id = none ∧ m.left_votes ≠ m.right_votes ∧
          m1 = resolveMatch m now g.event.vote_seconds) ∧
    (votingStep g now order).event.round_index = g.event.round_index ∧
    (votingStep g now order).event.state = .voting ∧
    (votingStep g now order).champion = g.champion ∧
    (votingStep g now order).matchRows.map MatchRow.id =
      g.matchRows.map MatchRow.id ∧
    (votingStep g now order).event.entry_end_utc =
      maxEnd (votingStep g now order).matchRows g.event.round_index := by
  have hlt : ¬ now < g.event.entry_end_utc := Nat.not_lt.mpr hnow
  -- the revote branch is taken
  have hb : (resolveRound g now).2 = true := by
    rw [resolveRound_snd]
    cases h : tiedIds g.matchRows g.event.round_index with
    | nil => exact absurd h htie
    | cons a as => rfl
  -- a tied undecided match exists, so the round is nonempty after resolution
  obtain ⟨mid0, hmid0⟩ :
      ∃ mid, mid ∈ tiedIds g.matchRows g.event.round_index := by
    cases h : tiedIds g.matchRows g.event.round_index with
    | nil => exact absurd h htie
    | cons a as => exact ⟨a, h ▸ List.mem_cons_self a as⟩
  obtain ⟨m0, hm0u, hm0t⟩ := List.mem_filterMap.mp hmid0
  have hm0 := List.mem_filter.mp hm0u
  have hm0r : m0.round_index = g.event.round_index := by
    have := hm0.2
    simp only [Bool.and_eq_true, beq_iff_eq, Option.isNone_iff_eq_none] at this
    exact this.1
  have hne_round :
      (roundMatches (resolveRound g now).1.matchRows g.event.round_index).isEmpty
        = false := by
    have hcond : (m0.round_index == g.event.round_index && m0.winner_id.isNone) = true := hm0.2
    have hmem : resolveMatch m0 now g.event.vote_seconds ∈
        (resolveRound g now).1.matchRows := by
      rw [resolveRound_fst_matchRows]
      refine List.mem_map.mpr ⟨m0, hm0.1, ?_⟩
      rw [if_pos hcond]
    have hmem2 : resolveMatch m0 now g.event.vote_seconds ∈
        roundMatches (resolveRound g now).1.matchRows g.event.round_index := by
      refine List.mem_filter.mpr ⟨hmem, ?_⟩
      simp [resolveMatch_round, hm0r]
    cases h : (roundMatches (resolveRound g now).1.matchRows
        g.event.round_index).isEmpty
    · rfl
    · rw [List.isEmpty_iff] at h
      rw [h] at hmem2
      exact absurd hmem2 (List.not_mem_nil _)
  have hne2 : ¬ (roundMatches (resolveRound g now).1.matchRows g.event.round_index = []) := by
    intro h
    have h2 := List.isEmpty_iff.mpr h
    rw [hne_round] at h2
    exact Bool.false_ne_true h2
  have hstep : votingStep g now order =
      extendEvent (resolveRound g now).1
        (maxEnd (resolveRound g now).1.matchRows g.event.round_index) := by
    rw [votingStep, if_pos hst, if_neg hlt]
    simp [hb, resolveRound_fst_event, hne2]
  rw [hstep]
  have hmatch : (extendEvent (resolveRound g now).1
      (maxEnd (resolveRound g now).1.matchRows g.event.round_index)).matchRows =
      (resolveRound g now).1.matchRows := rfl
  refine ⟨?_, ?_, rfl, rfl, rfl, ?_, rfl⟩
  · -- (i) tied undecided matches are reopened
    intro m hm hr hw ht
    have hcond : (m.round_index == g.event.round_index && m.winner_id.isNone) = true := by
      simp [hr, hw]
    have hmtied : m.id ∈ tiedIds g.matchRows g.event.round_index := by
      refine List.mem_filterMap.mpr ⟨m, List.mem_filter.mpr ⟨hm, hcond⟩, ?_⟩
      rw [if_pos ht]
    refine ⟨resolveMatch m now g.event.vote_seconds, ?_, ?_, ?_, ?_, ?_, ?_, ?_⟩
    · rw [hmatch, resolveRound_fst_matchRows]
      exact List.mem_map.mpr ⟨m, hm, by rw [if_pos hcond]⟩
    · exact resolveMatch_id m now g.event.vote_seconds
    · simp [resolveMatch, if_pos ht]
    · simp [resolveMatch, if_pos ht]
    · simp [resolveMatch, if_pos ht]
    · simp [resolveMatch, if_pos ht]
    · -- vote records of a reopened match are gone
      simp only [voteRecords, extendEvent, resolveRound_fst_voters]
      rw [List.filter_eq_nil_iff]
      intro v hv
      have hv2 := List.mem_filter.mp hv
      have hnc : v.match_id ∉ tiedIds g.matchRows g.event.round_index := by
        have h3 := hv2.2
        simp at h3
        exact h3
      simp only [beq_iff_eq]
      intro heq
      exact hnc (heq ▸ hmtied)
  · -- (ii) decided only when tallies differ
    intro m1 hm1 hr1 hw1
    rw [hmatch, resolveRound_fst_matchRows] at hm1
    obtain ⟨m, hm, hres⟩ := List.mem_map.mp hm1
    by_cases hcond : (m.round_index == g.event.round_index && m.winner_id.isNone) = true
    · rw [if_pos hcond] at hres
      by_cases ht : m.left_votes = m.right_votes
      · exfalso
        apply hw1
        rw [← hres]
        simp [resolveMatch, if_pos ht]
      · refine Or.inr ⟨m, hm, ?_, ht, hres.symm⟩
        have := hcond
        simp only [Bool.and_eq_true, Option.isNone_iff_eq_none] at this
        exact this.2
    · rw [if_neg hcond] at hres
      exact Or.inl (hres ▸ hm)
  · -- no match created: ids unchanged
    rw [hmatch, resolveRound_fst_matchRows, List.map_map]
    apply List.map_congr_left
    intro m hm
    simp only [Function.comp]
    by_cases hcond : (m.round_index == g.event.round_index && m.winner_id.isNone) = true
    · rw [if_pos hcond]
      exact resolveMatch_id m now g.event.vote_seconds
    · rw [if_neg hcond]

/-- Concrete state for the tie-reopening witness: a single 2-2 match at its deadline. -/
def gW2 : GuildState :=
  ⟨⟨.voting, 100, 60, 1⟩, [], [⟨1, 1, 10, 11, 100, 2, 2, none⟩],
   [⟨1, 50, .L⟩, ⟨1, 51, .L⟩, ⟨1, 52, .R⟩, ⟨1, 53, .R⟩], [], 2, none⟩

/-- Witness for `tie_reopens` at `gW2`. -/
theorem tie_reopens_witness :
    gW2.event.state = .voting ∧
    gW2.event.entry_end_utc ≤ 100 ∧
    tiedIds gW2.matchRows gW2.event.round_index ≠ [] ∧
    ((∀ m ∈ gW2.matchRows, m.round_index = gW2.event.round_index → m.winner_id = none →
        m.left_votes = m.right_votes →
        ∃ m1 ∈ (votingStep gW2 100 []).matchRows, m1.id = m.id ∧
          m1.winner_id = none ∧ m1.left_votes = 0 ∧ m1.right_votes = 0 ∧
          m1.end_utc = 100 + gW2.event.vote_seconds ∧
          voteRecords (votingStep gW2 100 []) m.id = []) ∧
     (∀ m1 ∈ (votingStep gW2 100 []).matchRows,
        m1.round_index = gW2.event.round_index → m1.winner_id ≠ none →
        m1 ∈ gW2.matchRows ∨
        ∃ m ∈ gW2.matchRows, m.winner_id = none ∧ m.left_votes ≠ m.right_votes ∧
          m1 = resolveMatch m 100 gW2.event.vote_seconds) ∧
     (votingStep gW2 100 []).event.round_index = gW2.event.round_index ∧
     (votingStep gW2 100 []).event.state = .voting ∧
     (votingStep gW2 100 []).champion = gW2.champion ∧
     (votingStep gW2 100 []).matchRows.map MatchRow.id =
       gW2.matchRows.map MatchRow.id ∧
     (votingStep gW2 100 []).event.entry_end_utc =
       maxEnd (votingStep gW2 100 []).matchRows gW2.event.round_index) :=
  ⟨rfl, by decide, by decide,
   tie_reopens gW2 100 [] rfl (by decide) (by decide)⟩

theorem insertMatch_matchRows (g : GuildState) (r lid rid endt : Nat) :
    (insertMatch g r lid rid endt).matchRows =
      g.matchRows ++ [⟨g.nextMatchId, r, lid, rid, endt, 0, 0, none⟩] := rfl

theorem foldl_insertMatch_mem (ps : List (Nat × Nat)) (g : GuildState) (r endt : Nat) :
    ∀ m ∈ (ps.foldl (fun s p => insertMatch s r p.1 p.2 endt) g).matchRows,
      m ∈ g.matchRows ∨ ∃ p ∈ ps, m.round_index = r ∧ m.left_id = p.1 ∧
        m.right_id = p.2 ∧ m.end_utc = endt ∧ m.left_votes = 0 ∧ m.right_votes = 0 ∧
        m.winner_id = none := by
  induction ps generalizing g with
  | nil => exact fun m hm => Or.inl hm
  | cons p ps ih =>
    intro m hm
    rw [List.foldl_cons] at hm
    rcases ih (insertMatch g r p.1 p.2 endt) m hm with h | h
    · rw [insertMatch_matchRows] at h
      rcases List.mem_append.mp h with h2 | h2
      · exact Or.inl h2
      · have hm2 : m = ⟨g.nextMatchId, r, p.1, p.2, endt, 0, 0, none⟩ := by
          simpa using h2
        subst hm2
        exact Or.inr ⟨p, List.mem_cons_self p ps, rfl, rfl, rfl, rfl, rfl, rfl, rfl⟩
    · obtain ⟨q, hq, hrest⟩ := h
      exact Or.inr ⟨q, List.mem_cons_of_mem p hq, hrest⟩

theorem foldl_insertMatch_length (ps : List (Nat × Nat)) (g : GuildState) (r endt : Nat) :
    (ps.foldl (fun s p => insertMatch s r p.1 p.2 endt) g).matchRows.length =
      g.matchRows.length + ps.length := by
  induction ps generalizing g with
  | nil => simp
  | cons p ps ih =>
    rw [List.foldl_cons, ih, insertMatch_matchRows]
    simp
    omega

theorem pairConsec_mem {α : Type} :
    ∀ (l : List α) (p : α × α), p ∈ pairConsec l → p.1 ∈ l ∧ p.2 ∈ l
  | [], p, h => by simp [pairConsec] at h
  | [a], p, h => by simp [pairConsec] at h
  | a :: b :: rest, p, h => by
    simp only [pairConsec, List.mem_cons] at h
    rcases h with h1 | h1
    · subst h1
      exact ⟨List.mem_cons_self _ _, List.mem_cons_of_mem _ (List.mem_cons_self _ _)⟩
    · have hp := pairConsec_mem rest p h1
      exact ⟨List.mem_cons_of_mem _ (List.mem_cons_of_mem _ hp.1),
             List.mem_cons_of_mem _ (List.mem_cons_of_mem _ hp.2)⟩

theorem pairConsec_ne :
    ∀ (l : List Nat), l.Nodup → ∀ p ∈ pairConsec l, p.1 ≠ p.2
  | [], _, p, h => by simp [pairConsec] at h
  | [a], _, p, h => by simp [pairConsec] at h
  | a :: b :: rest, hnd, p, h => by
    simp only [pairConsec, List.mem_cons] at h
    rcases h with h1 | h1
    · subst h1
      have h2 := List.nodup_cons.mp hnd
      intro hab
      have hab2 : a = b := hab
      exact h2.1 (by rw [hab2]; exact List.mem_cons_self b rest)
    · exact pairConsec_ne rest (List.nodup_cons.mp (List.nodup_cons.mp hnd).2).2 p h1

theorem pairConsec_length {α : Type} :
    ∀ (l : List α), (pairConsec l).length = l.length / 2
  | [] => by simp [pairConsec]
  | [a] => by simp [pairConsec]
  | a :: b :: rest => by
    simp only [pairConsec, List.length_cons, pairConsec_length rest]
    omega

/-- C4 (amended): at entry close, when fewer than two entrants have an image and fewer
than two entrants exist at all, the tournament transitions to Closed with no champion
declared and no matches created — this covers 0 eligible and also exactly 1 eligible,
which is likewise cancelled rather than promoted to instant champion. -/
theorem entry_close_cancel (g : GuildState) (now : Nat) (order : List Nat)
    (hst : g.event.state = .entry)
    (hnow : g.event.entry_end_utc ≤ now)
    (helig : (g.entrants.filter hasImage).length < 2)
    (htot : g.entrants.length < 2) :
    (entryCloseStep g now order).event.state = .closed ∧
    (entryCloseStep g now order).matchRows = g.matchRows ∧
    (entryCloseStep g now order).champion = g.champion := by
  rw [entryCloseStep, if_pos hst, if_neg (Nat.not_lt.mpr hnow)]
  simp [if_pos (And.intro helig htot)]

/-- Exactly one entrant, who did submit an image. -/
def gC4 : GuildState := ⟨⟨.entry, 100, 60, 0⟩, [⟨1, 900, some "i"⟩], [], [], [], 1, none⟩

/-- Counterexample to C4 as stated: with exactly 1 eligible participant the code does
NOT declare that participant champion — the event closes with no champion (the code's
"not enough looks to start" cancel branch covers both 0 and 1 eligible). -/
theorem instant_champion_counterexample :
    (gC4.entrants.filter hasImage).length = 1 ∧
    (entryCloseStep gC4 100 []).event.state = .closed ∧
    (entryCloseStep gC4 100 []).champion = none ∧
    ¬ ((entryCloseStep gC4 100 []).champion = some 1) := by decide

/-- Witness for `entry_close_cancel` at `gC4`. -/
theorem entry_close_cancel_witness :
    gC4.event.state = .entry ∧
    gC4.event.entry_end_utc ≤ 100 ∧
    (gC4.entrants.filter hasImage).length < 2 ∧
    gC4.entrants.length < 2 ∧
    ((entryCloseStep gC4 100 []).event.state = .closed ∧
     (entryCloseStep gC4 100 []).matchRows = gC4.matchRows ∧
     (entryCloseStep gC4 100 []).champion = gC4.champion) :=
  ⟨rfl, by decide, by decide, by decide,
   entry_close_cancel gC4 100 [] rfl (by decide) (by decide) (by decide)⟩

/-- C5 (amended): when at least two participants are eligible (non-null, non-blank
asset reference), round-1 pairing at entry close draws only from them: every match the
transition creates pairs two entrants that both have an image. -/
theorem eligible_pairing (g : GuildState) (now : Nat) (order : List Nat)
    (hst : g.event.state = .entry)
    (hnow : g.event.entry_end_utc ≤ now)
    (helig : 2 ≤ (g.entrants.filter hasImage).length)
    (hord : ∀ i ∈ order, i ∈ (g.entrants.filter hasImage).map Entrant.id) :
    ∀ m ∈ (entryCloseStep g now order).matchRows, m ∉ g.matchRows →
      (∃ e ∈ g.entrants, e.id = m.left_id ∧ hasImage e = true) ∧
      (∃ e ∈ g.entrants, e.id = m.right_id ∧ hasImage e = true) := by
  intro m hm hnot
  rw [entryCloseStep, if_pos hst, if_neg (Nat.not_lt.mpr hnow)] at hm
  rw [if_neg (by omega : ¬ ((g.entrants.filter hasImage).length < 2 ∧
      g.entrants.length < 2))] at hm
  have hm2 := foldl_insertMatch_mem (pairConsec order) g 1
      (now + g.event.vote_seconds) m hm
  rcases hm2 with h | ⟨p, hp, _, hl, hr, _⟩
  · exact absurd h hnot
  · have hmemp := pairConsec_mem order p hp
    constructor
    · obtain ⟨e, he, heid⟩ := List.mem_map.mp (hord p.1 hmemp.1)
      have he2 := List.mem_filter.mp he
      exact ⟨e, he2.1, heid.trans hl.symm, he2.2⟩
    · obtain ⟨e, he, heid⟩ := List.mem_map.mp (hord p.2 hmemp.2)
      have he2 := List.mem_filter.mp he
      exact ⟨e, he2.1, heid.trans hr.symm, he2.2⟩

/-- Two entrants, neither of whom ever submitted an image. -/
def gC5 : GuildState :=
  ⟨⟨.entry, 100, 60, 0⟩, [⟨1, 900, none⟩, ⟨2, 901, none⟩], [], [], [], 1, none⟩

/-- Counterexample to C5 as stated: with 0 eligible but 2 total entrants, the code
falls back to pairing ALL entrants, so a match is created whose two participants both
have a null asset reference. -/
theorem eligible_pairing_counterexample :
    (gC5.entrants.filter hasImage).length = 0 ∧
    (entryCloseStep gC5 100 [1, 2]).event.state = .voting ∧
    (entryCloseStep gC5 100 [1, 2]).matchRows = [⟨1, 1, 1, 2, 160, 0, 0, none⟩] := by
  decide

/-- Four entrants with images for the eligible-pairing witness. -/
def gW5 : GuildState :=
  ⟨⟨.entry, 100, 60, 0⟩,
   [⟨1, 900, some "a"⟩, ⟨2, 901, some "b"⟩, ⟨3, 902, some "c"⟩, ⟨4, 903, none⟩],
   [], [], [], 1, none⟩

/-- Witness for `eligible_pairing` at `gW5`. -/
theorem eligible_pairing_witness :
    gW5.event.state = .entry ∧
    gW5.event.entry_end_utc ≤ 100 ∧
    2 ≤ (gW5.entrants.filter hasImage).length ∧
    (∀ i ∈ [2, 1], i ∈ (gW5.entrants.filter hasImage).map Entrant.id) ∧
    (∀ m ∈ (entryCloseStep gW5 100 [2, 1]).matchRows, m ∉ gW5.matchRows →
      (∃ e ∈ gW5.entrants, e.id = m.left_id ∧ hasImage e = true) ∧
      (∃ e ∈ gW5.entrants, e.id = m.right_id ∧ hasImage e = true)) :=
  ⟨rfl, by decide, by decide, by decide,
   eligible_pairing gW5 100 [2, 1] rfl (by decide) (by decide) (by decide)⟩

/-- C8 (amended): the entry-deadline column is NOT immutable — the engine reuses it as
the round deadline: the entry-close transition overwrites it with
`now + vote_seconds`, and `/stylo_set_round_time_left` overwrites it again while the
event is in the voting state. -/
theorem deadline_overwritten (g g2 : GuildState) (now minutes : Nat) (order : List Nat)
    (hst : g.event.state = .entry)
    (hnow : g.event.entry_end_utc ≤ now)
    (hbig : ¬ ((g.entrants.filter hasImage).length < 2 ∧ g.entrants.length < 2))
    (hst2 : g2.event.state = .voting) :
    (entryCloseStep g now order).event.entry_end_utc = now + g.event.vote_seconds ∧
    (setRoundTimeLeft g2 now minutes).event.entry_end_utc =
      now + (max 1 minutes) * 60 := by
  constructor
  · rw [entryCloseStep, if_pos hst, if_neg (Nat.not_lt.mpr hnow)]
    simp only [if_neg hbig]
  · rw [setRoundTimeLeft, if_pos hst2]

/-- Two image-holding entrants, entry deadline 100. -/
def gC8 : GuildState :=
  ⟨⟨.entry, 100, 60, 0⟩, [⟨1, 900, some "i"⟩, ⟨2, 901, some "i"⟩], [], [], [], 1, none⟩

/-- Counterexample to C8 as stated: the entry deadline is mutated by the engine — the
entry-close transition itself rewrites the `entry_end_utc` column. -/
theorem deadline_counterexample :
    (entryCloseStep gC8 100 [1, 2]).event.entry_end_utc ≠ gC8.event.entry_end_utc := by
  decide

/-- Witness for `deadline_overwritten` at `gC8` (and a voting-state copy of it). -/
theorem deadline_overwritten_witness :
    gC8.event.state = .entry ∧
    gC8.event.entry_end_utc ≤ 100 ∧
    ¬ ((gC8.entrants.filter hasImage).length < 2 ∧ gC8.entrants.length < 2) ∧
    (entryCloseStep gC8 100 [1, 2]).event.state = .voting ∧
    ((entryCloseStep gC8 100 [1, 2]).event.entry_end_utc =
        100 + gC8.event.vote_seconds ∧
     (setRoundTimeLeft (entryCloseStep gC8 100 [1, 2]) 100 5).event.entry_end_utc =
        100 + (max 1 5) * 60) :=
  ⟨rfl, by decide, by decide, by decide,
   deadline_overwritten gC8 (entryCloseStep gC8 100 [1, 2]) 100 5 [1, 2]
     rfl (by decide) (by decide) (by decide)⟩

/-- C9 (amended): the image-capture handler overwrites a participant's asset reference
whenever an image arrives in that participant's ticket channel, with no check of the
tournament phase — the event (including its phase) is untouched but the entrant row is
updated even while the phase is Voting or Closed. -/
theorem capture_ignores_phase (g : GuildState) (channel : Nat) (url : String)
    (t : TicketRow) (e : Entrant)
    (hf : g.tickets.find? (fun tk => tk.channel_id == channel) = some t)
    (he : e ∈ g.entrants) (hid : e.id = t.entrant_id) :
    (∃ e1 ∈ (captureImage g channel url).entrants, e1.id = e.id ∧
       e1.image_url = some url) ∧
    (captureImage g channel url).event = g.event := by
  constructor
  · refine ⟨{ e with image_url := some url }, ?_, rfl, rfl⟩
    simp only [captureImage, hf]
    exact List.mem_map.mpr ⟨e, he, by rw [if_pos hid]⟩
  · simp [captureImage, hf]

/-- A voting-phase state with a live ticket for entrant 1. -/
def gC9 : GuildState :=
  ⟨⟨.voting, 100, 60, 1⟩, [⟨1, 900, some "old"⟩], [], [], [⟨1, 7⟩], 2, none⟩

/-- Counterexample to C9 as stated: an image posted in a ticket channel while the
phase is Voting still overwrites the participant's asset reference. -/
theorem capture_counterexample :
    gC9.event.state = .voting ∧
    (captureImage gC9 7 "new").entrants ≠ gC9.entrants ∧
    (captureImage gC9 7 "new").entrants = [⟨1, 900, some "new"⟩] := by decide

/-- Witness for `capture_ignores_phase` at `gC9`. -/
theorem capture_ignores_phase_witness :
    gC9.tickets.find? (fun tk => tk.channel_id == 7) = some ⟨1, 7⟩ ∧
    (⟨1, 900, some "old"⟩ : Entrant) ∈ gC9.entrants ∧
    (⟨1, 900, some "old"⟩ : Entrant).id = (⟨1, 7⟩ : TicketRow).entrant_id ∧
    ((∃ e1 ∈ (captureImage gC9 7 "new").entrants,
        e1.id = (⟨1, 900, some "old"⟩ : Entrant).id ∧ e1.image_url = some "new") ∧
     (captureImage gC9 7 "new").event = gC9.event) :=
  ⟨by decide, by decide, by decide,
   capture_ignores_phase gC9 7 "new" ⟨1, 7⟩ ⟨1, 900, some "old"⟩
     (by decide) (by decide) (by decide)⟩

theorem bestLoser_mem (tl : List (Nat × Nat)) :
    ∀ hd, bestLoser hd tl ∈ hd :: tl := by
  induction tl with
  | nil => exact fun hd => List.mem_cons_self hd []
  | cons x xs ih =>
    intro hd
    have hstep : bestLoser hd (x :: xs) =
        bestLoser (if hd.2 < x.2 ∨ (x.2 = hd.2 ∧ x.1 < hd.1) then x else hd) xs := rfl
    rw [hstep]
    rcases List.mem_cons.mp (ih (if hd.2 < x.2 ∨ (x.2 = hd.2 ∧ x.1 < hd.1)
        then x else hd)) with h | h
    · rw [h]
      by_cases hc : hd.2 < x.2 ∨ (x.2 = hd.2 ∧ x.1 < hd.1)
      · rw [if_pos hc]
        exact List.mem_cons_of_mem _ (List.mem_cons_self _ _)
      · rw [if_neg hc]
        exact List.mem_cons_self _ _
    · exact List.mem_cons_of_mem _ (List.mem_cons_of_mem _ h)

theorem bestLoser_max (tl : List (Nat × Nat)) :
    ∀ hd, ∀ t ∈ hd :: tl,
      t.2 < (bestLoser hd tl).2 ∨
      (t.2 = (bestLoser hd tl).2 ∧ (bestLoser hd tl).1 ≤ t.1) := by
  induction tl with
  | nil =>
    intro hd t ht
    rcases List.mem_cons.mp ht with h | h
    · subst h
      exact Or.inr ⟨rfl, le_refl _⟩
    · simp at h
  | cons x xs ih =>
    intro hd t ht
    have hstep : bestLoser hd (x :: xs) =
        bestLoser (if hd.2 < x.2 ∨ (x.2 = hd.2 ∧ x.1 < hd.1) then x else hd) xs := rfl
    rw [hstep]
    set hd2 := if hd.2 < x.2 ∨ (x.2 = hd.2 ∧ x.1 < hd.1) then x else hd with hhd2
    have hdom_hd : hd.2 < hd2.2 ∨ (hd.2 = hd2.2 ∧ hd2.1 ≤ hd.1) := by
      by_cases hc : hd.2 < x.2 ∨ (x.2 = hd.2 ∧ x.1 < hd.1)
      · rw [hhd2, if_pos hc]
        omega
      · rw [hhd2, if_neg hc]
        omega
    have hdom_x : x.2 < hd2.2 ∨ (x.2 = hd2.2 ∧ hd2.1 ≤ x.1) := by
      by_cases hc : hd.2 < x.2 ∨ (x.2 = hd.2 ∧ x.1 < hd.1)
      · rw [hhd2, if_pos hc]
        omega
      · rw [hhd2, if_neg hc]
        omega
    have hb := ih hd2 hd2 (List.mem_cons_self hd2 xs)
    rcases List.mem_cons.mp ht with h | h
    · subst h
      omega
    · rcases List.mem_cons.mp h with h2 | h2
      · subst h2
        omega
      · exact ih hd2 t (List.mem_cons_of_mem hd2 h2)

/-- C3 (amended): when round 1 has exactly one leftover participant and the decided
matches yield a loser, `advance_to_next_round` creates exactly one extra match in the
same round pairing the leftover against the strongest loser — selected by highest
losing vote count with ties broken by LOWEST participant id (the total-votes tie-break
of the spec is only a fallback used when no losing counts are supplied) — and when no
loser exists the leftover advances as a bye into the winners pool. -/
theorem strongest_loser_rule (g : GuildState) (now : Nat) (order : List Nat) (l : Nat)
    (hr : g.event.round_index = 1)
    (hlo : r1Leftovers g = [l]) :
    (∀ opp, pickLeftoverOpponent (roundMatches g.matchRows 1)
        (losersWithVotes (roundMatches g.matchRows 1)) = some opp →
      ((advanceStep g now order).matchRows = g.matchRows ++
          [⟨g.nextMatchId, 1, l, opp, now + g.event.vote_seconds, 0, 0, none⟩] ∧
       (advanceStep g now order).event.round_index = g.event.round_index ∧
       (advanceStep g now order).event.state = .voting ∧
       (advanceStep g now order).event.entry_end_utc = now + g.event.vote_seconds) ∧
      ∀ hd tl, losersWithVotes (roundMatches g.matchRows 1) = hd :: tl →
        opp = (bestLoser hd tl).1 ∧
        bestLoser hd tl ∈ hd :: tl ∧
        ∀ t ∈ hd :: tl, t.2 < (bestLoser hd tl).2 ∨
          (t.2 = (bestLoser hd tl).2 ∧ (bestLoser hd tl).1 ≤ t.1)) ∧
    (pickLeftoverOpponent (roundMatches g.matchRows 1)
        (losersWithVotes (roundMatches g.matchRows 1)) = none →
      advanceStep g now order = advanceCore g now order
        (((roundMatches g.matchRows 1).filterMap MatchRow.winner_id) ++ [l]) 0) := by
  constructor
  · intro opp hpick
    constructor
    · rw [advanceStep]
      simp only [hr, hlo, hpick, List.length_cons, List.length_nil, if_true,
        List.headD_cons]
      exact ⟨rfl, hr, rfl, rfl⟩
    · intro hd tl hlwv
      rw [hlwv] at hpick
      rw [pickLeftoverOpponent] at hpick
      refine ⟨by injection hpick with h; exact h.symm, bestLoser_mem tl hd, ?_⟩
      exact bestLoser_max tl hd
  · intro hpick
    rw [advanceStep]
    simp [hr, hlo, hpick]

/-- Two decided round-1 matches whose losers (ids 1 and 2) both lost with 5 votes, the
higher-id loser in the match with the larger total. -/
def msC3 : List MatchRow :=
  [⟨1, 1, 10, 1, 100, 6, 5, some 10⟩, ⟨2, 1, 11, 2, 100, 9, 5, some 11⟩]

/-- Counterexample to C3 as stated: with two losers tied at 5 losing votes and totals
11 and 14, the spec's rule (ties broken by highest total votes, then lowest id) picks
loser 2, but `_pick_leftover_opponent` breaks the tie by lowest id directly and picks
loser 1 — the total-votes tie-break is skipped whenever losing counts are present. -/
theorem strongest_loser_counterexample :
    losersWithVotes msC3 = [(1, 5), (2, 5)] ∧
    specLosers msC3 = [(1, 5, 11), (2, 5, 14)] ∧
    specStrongestLoser (specLosers msC3) = some 2 ∧
    pickLeftoverOpponent msC3 (losersWithVotes msC3) = some 1 := by decide

/-- Five entrants, everyone with an image. -/
def entrants5 : List Entrant :=
  [⟨1, 901, some "i"⟩, ⟨2, 902, some "i"⟩, ⟨3, 903, some "i"⟩, ⟨4, 904, some "i"⟩,
   ⟨5, 905, some "i"⟩]

/-- Round 1 of a 5-entrant event: (1 vs 5) decided 5-4 for 1, (2 vs 3) decided 0-1
for 3; entrant 4 is the unpaired leftover. -/
def gW3 : GuildState :=
  ⟨⟨.voting, 100, 60, 1⟩, entrants5,
   [⟨1, 1, 1, 5, 100, 5, 4, some 1⟩, ⟨2, 1, 2, 3, 100, 0, 1, some 3⟩],
   [], [], 3, none⟩

/-- Witness for `strongest_loser_rule` at `gW3` (leftover 4, opponent 5). -/
theorem strongest_loser_rule_witness :
    gW3.event.round_index = 1 ∧
    r1Leftovers gW3 = [4] ∧
    ((∀ opp, pickLeftoverOpponent (roundMatches gW3.matchRows 1)
        (losersWithVotes (roundMatches gW3.matchRows 1)) = some opp →
      ((advanceStep gW3 100 []).matchRows = gW3.matchRows ++
          [⟨gW3.nextMatchId, 1, 4, opp, 100 + gW3.event.vote_seconds, 0, 0, none⟩] ∧
       (advanceStep gW3 100 []).event.round_index = gW3.event.round_index ∧
       (advanceStep gW3 100 []).event.state = .voting ∧
       (advanceStep gW3 100 []).event.entry_end_utc = 100 + gW3.event.vote_seconds) ∧
      ∀ hd tl, losersWithVotes (roundMatches gW3.matchRows 1) = hd :: tl →
        opp = (bestLoser hd tl).1 ∧
        bestLoser hd tl ∈ hd :: tl ∧
        ∀ t ∈ hd :: tl, t.2 < (bestLoser hd tl).2 ∨
          (t.2 = (bestLoser hd tl).2 ∧ (bestLoser hd tl).1 ≤ t.1)) ∧
     (pickLeftoverOpponent (roundMatches gW3.matchRows 1)
        (losersWithVotes (roundMatches gW3.matchRows 1)) = none →
      advanceStep gW3 100 [] = advanceCore gW3 100 []
        (((roundMatches gW3.matchRows 1).filterMap MatchRow.winner_id) ++ [4]) 0)) :=
  ⟨rfl, by decide, strongest_loser_rule gW3 100 [] 4 rfl (by decide)⟩

theorem buildNext_no_self_pair (g : GuildState) (now : Nat) (order : List Nat)
    (ws : List Nat) (hord : order.Nodup) :
    ∀ m ∈ (buildNext g now order ws).matchRows, m ∉ g.matchRows →
      m.left_id ≠ m.right_id := by
  intro m hm hnot
  rw [buildNext] at hm
  by_cases h2 : 2 ≤ ws.length
  · rw [if_pos h2] at hm
    have hm2 := foldl_insertMatch_mem (pairConsec order) g (g.event.round_index + 1)
      (now + g.event.vote_seconds) m hm
    rcases hm2 with h | ⟨p, hp, _, hl, hrr, _⟩
    · exact absurd h hnot
    · rw [hl, hrr]
      exact pairConsec_ne order hord p hp
  · rw [if_neg h2] at hm
    exact absurd hm hnot

/-- C6 (amended): matches built by consecutive pairing of a duplicate-free shuffled
pool never self-pair — neither the round-1 pairing at entry close nor a next round
built from winners, as long as the winners list has no duplicate ids.  (The original
claim fails because the winners pool CAN contain a duplicate: a participant who wins
both a primary match and a same-round special match appears twice, and the special
match itself can pair a participant against themselves — see the counterexample.) -/
theorem no_self_pair (g : GuildState) (now : Nat) (order : List Nat)
    (hord : order.Nodup) :
    (∀ p ∈ pairConsec order, p.1 ≠ p.2) ∧
    (∀ m ∈ (entryCloseStep g now order).matchRows, m ∉ g.matchRows →
       m.left_id ≠ m.right_id) ∧
    (∀ winners lc, ¬ (1 ≤ winners.length ∧ winners.length % 2 = 1) →
       ∀ m ∈ (advanceCore g now order winners lc).matchRows, m ∉ g.matchRows →
       m.left_id ≠ m.right_id) := by
  refine ⟨pairConsec_ne order hord, ?_, ?_⟩
  · intro m hm hnot
    rw [entryCloseStep] at hm
    by_cases h1 : g.event.state = .entry
    · rw [if_pos h1] at hm
      by_cases h2 : now < g.event.entry_end_utc
      · rw [if_pos h2] at hm
        exact absurd hm hnot
      · rw [if_neg h2] at hm
        by_cases h3 : (g.entrants.filter hasImage).length < 2 ∧ g.entrants.length < 2
        · rw [if_pos h3] at hm
          exact absurd hm hnot
        · rw [if_neg h3] at hm
          have hm2 := foldl_insertMatch_mem (pairConsec order) g 1
            (now + g.event.vote_seconds) m hm
          rcases hm2 with h | ⟨p, hp, _, hl, hrr, _⟩
          · exact absurd h hnot
          · rw [hl, hrr]
            exact pairConsec_ne order hord p hp
    · rw [if_neg h1] at hm
      exact absurd hm hnot
  · intro winners lc hodd m hm hnot
    rw [advanceCore] at hm
    by_cases hch : winners.length = 1 ∧ lc = 0
    · rw [if_pos hch] at hm
      exact absurd hm hnot
    · rw [if_neg hch, if_neg hodd] at hm
      exact buildNext_no_self_pair g now order winners hord m hm hnot

/-- Round 1 of the 5-entrant trace: (1 vs 5) at 5-4 and (2 vs 3) at 0-1, both
undecided, at the round deadline 100; entrant 4 never fought. -/
def gC6 : GuildState :=
  ⟨⟨.voting, 100, 60, 1⟩, entrants5,
   [⟨1, 1, 1, 5, 100, 5, 4, none⟩, ⟨2, 1, 2, 3, 100, 0, 1, none⟩],
   [], [], 3, none⟩

/-- The tick at time 100: decides both primaries and creates the special match. -/
def gC6a : GuildState := votingStep gC6 100 []

/-- Three voters vote 1-2 on the special match (id 3) during its window. -/
def gC6b : GuildState :=
  (castVote (castVote (castVote gC6a 3 101 .L 120).1 3 102 .R 120).1 3 103 .R 120).1

/-- The tick at time 160: decides the special match and advances again. -/
def gC6c : GuildState := votingStep gC6b 160 []

/-- Counterexample to C6 as stated: from a reachable state (two decided primaries and
a decided special match of round 1, with entrant 5 the winner of primary (1 vs 5)'s
opponent bracket and of the special match, and also the strongest loser), the next
invocation of `advance_to_next_round` inserts a match whose left and right participant
are BOTH entrant 5. -/
theorem no_self_pair_counterexample :
    (∃ m ∈ gC6a.matchRows, m.round_index = 1 ∧ m.left_id = 4 ∧ m.right_id = 5 ∧
       m.winner_id = none) ∧
    (∃ m ∈ gC6c.matchRows, m.round_index = 1 ∧ m.left_id = 5 ∧ m.right_id = 5) := by
  decide

/-- An entry-phase state with two image-holding entrants, for the no-self-pair
witness. -/
def gW6 : GuildState :=
  ⟨⟨.entry, 100, 60, 0⟩, [⟨1, 900, some "i"⟩, ⟨2, 901, some "i"⟩], [], [], [], 1, none⟩

/-- Witness for `no_self_pair` at a duplicate-free 4-element order. -/
theorem no_self_pair_witness :
    ([10, 11, 12, 13] : List Nat).Nodup ∧
    ((∀ p ∈ pairConsec [10, 11, 12, 13], p.1 ≠ p.2) ∧
     (∀ m ∈ (entryCloseStep gW6 100 [10, 11, 12, 13]).matchRows,
        m ∉ gW6.matchRows → m.left_id ≠ m.right_id) ∧
     (∀ winners lc, ¬ (1 ≤ winners.length ∧ winners.length % 2 = 1) →
        ∀ m ∈ (advanceCore gW6 100 [10, 11, 12, 13] winners lc).matchRows,
        m ∉ gW6.matchRows → m.left_id ≠ m.right_id)) :=
  ⟨by decide, no_self_pair gW6 100 [10, 11, 12, 13] (by decide)⟩

/-- With an even pool of at least two winners, `buildNext` pairs the shuffled pool
into exactly `ws.length / 2` matches of the next round. -/
theorem buildNext_matchCount (g : GuildState) (now : Nat) (order ws : List Nat)
    (h2 : 2 ≤ ws.length) (hperm : order.Perm ws) :
    (buildNext g now order ws).matchRows.length =
      g.matchRows.length + ws.length / 2 ∧
    (buildNext g now order ws).event.round_index = g.event.round_index + 1 := by
  rw [buildNext, if_pos h2]
  refine ⟨?_, rfl⟩
  have hlen := foldl_insertMatch_length (pairConsec order) g
    (g.event.round_index + 1) (now + g.event.vote_seconds)
  rw [hlen, pairConsec_length, hperm.length_eq]

/-- With a single winner and no pending leftover, `advance_to_next_round` closes the
event and declares that winner champion. -/
theorem advanceCore_champion (g : GuildState) (now : Nat) (order : List Nat) (c : Nat) :
    (advanceCore g now order [c] 0).event.state = .closed ∧
    (advanceCore g now order [c] 0).champion = some c := by
  rw [advanceCore, if_pos ⟨rfl, rfl⟩]
  exact ⟨rfl, rfl⟩

/-- With an odd pool (and a loser available as opponent), `advance_to_next_round`
inserts exactly one special match in the CURRENT round — pairing the maximum-id winner
against the picked opponent — so once it is decided the pool has grown by one. -/
theorem advanceCore_odd_special (g : GuildState) (now : Nat) (order winners : List Nat)
    (lc opp : Nat)
    (hne1 : ¬ (winners.length = 1 ∧ lc = 0))
    (hodd : 1 ≤ winners.length ∧ winners.length % 2 = 1)
    (hpick : pickLeftoverOpponent (roundMatches g.matchRows g.event.round_index)
      (losersWithVotes (roundMatches g.matchRows g.event.round_index)) = some opp) :
    (advanceCore g now order winners lc).matchRows = g.matchRows ++
      [⟨g.nextMatchId, g.event.round_index, winners.foldl max 0, opp,
        now + g.event.vote_seconds, 0, 0, none⟩] ∧
    (advanceCore g now order winners lc).event.round_index = g.event.round_index := by
  rw [advanceCore, if_neg hne1, if_pos hodd]
  simp only [hpick]
  exact ⟨rfl, rfl⟩

/-- Number of odd-pool corrections (same-round special matches) the engine performs
starting from a winners pool of the given size: one whenever the pool is odd on the
ceiling-halving orbit.  Used purely to express the claimed bound. -/
def oddCorrections (w : Nat) : Nat :=
  if w ≤ 1 then 0 else (w % 2) + oddCorrections ((w + 1) / 2)
decreasing_by omega

/-- Number of scheduler ticks needed to finish a round whose matches total w: an even
pool is built into a next round of w / 2 matches (one tick); an odd pool first spends
a tick on the same-round special match and only then halves. -/
def tickBound (w : Nat) : Nat :=
  if w ≤ 1 then 1
  else if w % 2 = 0 then 1 + tickBound (w / 2)
  else 2 + tickBound ((w + 1) / 2)
decreasing_by all_goals omega

theorem tickBound_pos (w : Nat) : 1 ≤ tickBound w := by
  rw [tickBound]
  split
  · omega
  · split <;> omega

theorem tickBound_eq_clog : ∀ w, 1 ≤ w →
    tickBound w = Nat.clog 2 w + oddCorrections w + 1 := by
  intro w
  induction w using Nat.strong_induction_on with
  | _ w ih =>
    intro hw
    by_cases h1 : w ≤ 1
    · have hw1 : w = 1 := by omega
      subst hw1
      rw [tickBound, if_pos (by omega), oddCorrections, if_pos (by omega),
        Nat.clog_one_right]
    · have hdiv : (w + 2 - 1) / 2 = (w + 1) / 2 := by omega
      by_cases h2 : w % 2 = 0
      · have heq : (w + 1) / 2 = w / 2 := by omega
        rw [tickBound, if_neg h1, if_pos h2, oddCorrections, if_neg h1, h2,
          Nat.clog_of_two_le (by omega) (by omega), hdiv, heq,
          ih (w / 2) (by omega) (by omega)]
        omega
      · rw [tickBound, if_neg h1, if_neg h2, oddCorrections, if_neg h1,
          Nat.clog_of_two_le (by omega) (by omega), hdiv,
          ih ((w + 1) / 2) (by omega) (by omega)]
        omega

/-- Matches m and mt agree on everything except their two tally counters — the only
match columns `castVote` can change on a still-open match. -/
def SameShape (m mt : MatchRow) : Prop :=
  mt.id = m.id ∧ mt.round_index = m.round_index ∧ mt.left_id = m.left_id ∧
  mt.right_id = m.right_id ∧ mt.end_utc = m.end_utc ∧ mt.winner_id = m.winner_id

/-- What the voting environment may do to the persisted state between two scheduler
ticks: change match tallies (and the voter table), nothing else — `MatchView._vote`
touches only `voter` rows and the two counters of a match. -/
def Retally (g gt : GuildState) : Prop :=
  gt.event = g.event ∧ gt.entrants = g.entrants ∧ gt.nextMatchId = g.nextMatchId ∧
  gt.champion = g.champion ∧ List.Forall₂ SameShape g.matchRows gt.matchRows

/-- One scheduler tick under an arbitrary voting environment: voters retally the open
matches so that every undecided match of the current round ends with unequal tallies
(the claim's "each match deadline is eventually reached with some outcome"), the tick
fires at or after the round deadline, the shuffle is some permutation of the winners
pool, and the persisted state moves by `votingStep`. -/
def EnvStep (g gNext : GuildState) : Prop :=
  ∃ gt now order,
    Retally g gt ∧
    gt.event.entry_end_utc ≤ now ∧
    (∀ m ∈ undecided gt.matchRows gt.event.round_index,
      m.left_votes ≠ m.right_votes) ∧
    order.Perm ((roundMatches (resolveRound gt now).1.matchRows
      gt.event.round_index).filterMap MatchRow.winner_id) ∧
    gNext = votingStep gt now order

/-- The tournament reaches the Closed state with a champion within n scheduler ticks,
whatever the voting environment does at each tick. -/
inductive ClosesWithin : GuildState → Nat → Prop where
  | done : ∀ (g : GuildState) (n : Nat), g.event.state = .closed →
      g.champion.isSome = true → ClosesWithin g n
  | tick : ∀ (g : GuildState) (n : Nat),
      (∀ g2, EnvStep g g2 → ClosesWithin g2 n) → ClosesWithin g (n + 1)

theorem resolveMatch_left (m : MatchRow) (now vs : Nat) :
    (resolveMatch m now vs).left_id = m.left_id := by
  unfold resolveMatch
  split <;> rfl

theorem resolveMatch_right (m : MatchRow) (now vs : Nat) :
    (resolveMatch m now vs).right_id = m.right_id := by
  unfold resolveMatch
  split <;> rfl

theorem resolveMatch_winner_mem (m : MatchRow) (now vs : Nat) (w : Nat)
    (h : (resolveMatch m now vs).winner_id = some w) :
    w = m.left_id ∨ w = m.right_id := by
  rw [resolveMatch] at h
  by_cases ht : m.left_votes = m.right_votes
  · rw [if_pos ht] at h
    simp at h
  · rw [if_neg ht] at h
    have h2 : some (if m.right_votes < m.left_votes then m.left_id else m.right_id)
        = some w := h
    injection h2 with h2
    by_cases hc : m.right_votes < m.left_votes
    · rw [if_pos hc] at h2
      exact Or.inl h2.symm
    · rw [if_neg hc] at h2
      exact Or.inr h2.symm

theorem resolveMatch_decides (m : MatchRow) (now vs : Nat)
    (h : m.left_votes ≠ m.right_votes) :
    (resolveMatch m now vs).winner_id.isSome = true := by
  rw [resolveMatch, if_neg h]
  rfl

theorem foughtIds_cons (m : MatchRow) (ms : List MatchRow) :
    foughtIds (m :: ms) = m.left_id :: m.right_id :: foughtIds ms := rfl

theorem foughtIds_append (l1 l2 : List MatchRow) :
    foughtIds (l1 ++ l2) = foughtIds l1 ++ foughtIds l2 := by
  induction l1 with
  | nil => rfl
  | cons m ms ih => rw [List.cons_append, foughtIds_cons, foughtIds_cons, ih]; rfl

theorem mem_foughtIds (ms : List MatchRow) (a : Nat) :
    a ∈ foughtIds ms ↔ ∃ m ∈ ms, a = m.left_id ∨ a = m.right_id := by
  induction ms with
  | nil => simp [foughtIds]
  | cons m ms ih =>
    rw [foughtIds_cons]
    simp only [List.mem_cons, ih]
    constructor
    · rintro (h | h | ⟨m2, hm2, h2⟩)
      · exact ⟨m, Or.inl rfl, Or.inl h⟩
      · exact ⟨m, Or.inl rfl, Or.inr h⟩
      · exact ⟨m2, Or.inr hm2, h2⟩
    · rintro ⟨m2, hm2 | hm2, h2⟩
      · subst hm2
        rcases h2 with h2 | h2
        · exact Or.inl h2
        · exact Or.inr (Or.inl h2)
      · exact Or.inr (Or.inr ⟨m2, hm2, h2⟩)

theorem winners_undecided_partition (ms : List MatchRow) :
    (ms.filterMap MatchRow.winner_id).length +
      (ms.filter (fun m => m.winner_id.isNone)).length = ms.length := by
  induction ms with
  | nil => rfl
  | cons m ms ih =>
    cases hw : m.winner_id with
    | none =>
      simp only [List.filterMap_cons, List.filter_cons, hw, Option.isNone_none,
        if_true, List.length_cons]
      omega
    | some w =>
      simp only [List.filterMap_cons, List.filter_cons, hw, Option.isNone_some,
        Bool.false_eq_true, if_false, List.length_cons]
      omega

theorem undecided_eq (ms : List MatchRow) (r : Nat) :
    undecided ms r = (roundMatches ms r).filter (fun m => m.winner_id.isNone) := by
  rw [undecided, roundMatches, List.filter_filter]
  apply List.filter_congr
  intro m _
  exact Bool.and_comm _ _

theorem sameShape_filter {p : MatchRow → Bool}
    (hp : ∀ a b, SameShape a b → p b = p a) :
    ∀ {ms ms' : List MatchRow}, List.Forall₂ SameShape ms ms' →
      List.Forall₂ SameShape (ms.filter p) (ms'.filter p) := by
  intro ms ms' h
  induction h with
  | nil => constructor
  | @cons a b as bs hab htl ih =>
    rw [List.filter_cons, List.filter_cons, hp a b hab]
    by_cases hc : p a = true
    · rw [if_pos hc, if_pos hc]
      exact List.Forall₂.cons hab ih
    · rw [if_neg hc, if_neg hc]
      exact ih

theorem sameShape_mem_right {α β : Type} {R : α → β → Prop} :
    ∀ {ms : List α} {ms' : List β}, List.Forall₂ R ms ms' →
      ∀ b ∈ ms', ∃ a ∈ ms, R a b := by
  intro ms ms' h
  induction h with
  | nil => intro b hb; simp at hb
  | @cons a b2 as bs hab htl ih =>
    intro b hb
    rcases List.mem_cons.mp hb with h1 | h1
    · exact ⟨a, List.mem_cons_self _ _, h1 ▸ hab⟩
    · obtain ⟨a2, ha2, har⟩ := ih b h1
      exact ⟨a2, List.mem_cons_of_mem _ ha2, har⟩

theorem sameShape_winners :
    ∀ {ms ms' : List MatchRow}, List.Forall₂ SameShape ms ms' →
      ms'.filterMap MatchRow.winner_id = ms.filterMap MatchRow.winner_id := by
  intro ms ms' h
  induction h with
  | nil => rfl
  | @cons a b as bs hab htl ih =>
    have hw : b.winner_id = a.winner_id := hab.2.2.2.2.2
    cases ha : a.winner_id with
    | none =>
      rw [List.filterMap_cons_none (by rw [hw, ha]),
          List.filterMap_cons_none ha, ih]
    | some w =>
      rw [List.filterMap_cons_some (by rw [hw, ha]),
          List.filterMap_cons_some ha, ih]

theorem sameShape_foughtIds :
    ∀ {ms ms' : List MatchRow}, List.Forall₂ SameShape ms ms' →
      foughtIds ms' = foughtIds ms := by
  intro ms ms' h
  induction h with
  | nil => rfl
  | @cons a b as bs hab htl ih =>
    rw [foughtIds_cons, foughtIds_cons, hab.2.2.1, hab.2.2.2.1, ih]

theorem resolveRound_fst_entrants (g : GuildState) (now : Nat) :
    (resolveRound g now).1.entrants = g.entrants := rfl

theorem resolveRound_fst_nextMatchId (g : GuildState) (now : Nat) :
    (resolveRound g now).1.nextMatchId = g.nextMatchId := rfl

theorem resolveRound_roundMatches (g : GuildState) (now : Nat) (r2 : Nat) :
    roundMatches (resolveRound g now).1.matchRows r2 =
      (roundMatches g.matchRows r2).map (fun m =>
        if m.round_index == g.event.round_index && m.winner_id.isNone
        then resolveMatch m now g.event.vote_seconds else m) := by
  rw [resolveRound_fst_matchRows, roundMatches, roundMatches, List.filter_map]
  congr 1
  apply List.filter_congr
  intro m _
  simp only [Function.comp_apply]
  by_cases hc : (m.round_index == g.event.round_index && m.winner_id.isNone) = true
  · rw [if_pos hc, resolveMatch_round]
  · rw [if_neg hc]

theorem foughtIds_map_resolve (ms : List MatchRow) (now vs r : Nat) :
    foughtIds (ms.map (fun m =>
      if m.round_index == r && m.winner_id.isNone
      then resolveMatch m now vs else m)) = foughtIds ms := by
  induction ms with
  | nil => rfl
  | cons m ms ih =>
    rw [List.map_cons, foughtIds_cons, foughtIds_cons, ih]
    by_cases hc : (m.round_index == r && m.winner_id.isNone) = true
    · rw [if_pos hc, resolveMatch_left, resolveMatch_right]
    · rw [if_neg hc]

theorem length_winners_resolve (l : List MatchRow) (now vs r : Nat)
    (hr : ∀ m ∈ l, (m.round_index == r) = true)
    (hneq : ∀ m ∈ l, m.winner_id = none → m.left_votes ≠ m.right_votes) :
    ((l.map (fun m => if m.round_index == r && m.winner_id.isNone
      then resolveMatch m now vs else m)).filterMap MatchRow.winner_id).length
      = l.length := by
  induction l with
  | nil => rfl
  | cons m ms ih =>
    rw [List.map_cons]
    have ihs := ih (fun x hx => hr x (List.mem_cons_of_mem m hx))
      (fun x hx => hneq x (List.mem_cons_of_mem m hx))
    cases hw : m.winner_id with
    | some w =>
      have hhead : (if (m.round_index == r && (some w).isNone) = true
          then resolveMatch m now vs else m) = m := by simp
      rw [hhead, List.filterMap_cons_some hw, List.length_cons, ihs, List.length_cons]
    | none =>
      have hcr := hr m (List.mem_cons_self m ms)
      have hhead : (if (m.round_index == r && (none : Option Nat).isNone) = true
          then resolveMatch m now vs else m) = resolveMatch m now vs := by
        simp [hcr]
      rw [hhead]
      have hdec := resolveMatch_decides m now vs
        (hneq m (List.mem_cons_self m ms) hw)
      obtain ⟨w, hww⟩ := Option.isSome_iff_exists.mp hdec
      rw [List.filterMap_cons_some hww, List.length_cons, ihs, List.length_cons]

theorem undecided_resolve_nil (g : GuildState) (now : Nat)
    (hneq : ∀ m ∈ undecided g.matchRows g.event.round_index,
      m.left_votes ≠ m.right_votes) :
    undecided (resolveRound g now).1.matchRows g.event.round_index = [] := by
  rw [resolveRound_fst_matchRows, undecided, List.filter_map]
  have h1 : (g.matchRows.filter ((fun m =>
      m.round_index == g.event.round_index && m.winner_id.isNone) ∘ (fun m =>
      if m.round_index == g.event.round_index && m.winner_id.isNone
      then resolveMatch m now g.event.vote_seconds else m))) = [] := by
    rw [List.filter_eq_nil_iff]
    intro m hm
    simp only [Function.comp_apply]
    by_cases hc : (m.round_index == g.event.round_index && m.winner_id.isNone) = true
    · rw [if_pos hc]
      have hm2 : m ∈ undecided g.matchRows g.event.round_index :=
        List.mem_filter.mpr ⟨hm, hc⟩
      have hdec := resolveMatch_decides m now g.event.vote_seconds (hneq m hm2)
      have hnone : (resolveMatch m now g.event.vote_seconds).winner_id.isNone
          = false := by
        cases hww : (resolveMatch m now g.event.vote_seconds).winner_id with
        | none =>
          rw [hww] at hdec
          simp at hdec
        | some w => rfl
      rw [hnone]
      simp
    · rw [if_neg hc]
      exact fun hcontra => hc hcontra
  rw [h1]
  rfl

theorem hwin_resolveRound (g : GuildState) (now : Nat)
    (hwin : ∀ m ∈ g.matchRows, ∀ w, m.winner_id = some w →
      w = m.left_id ∨ w = m.right_id) :
    ∀ m2 ∈ (resolveRound g now).1.matchRows, ∀ w, m2.winner_id = some w →
      w = m2.left_id ∨ w = m2.right_id := by
  rw [resolveRound_fst_matchRows]
  intro m2 hm2 w hw
  obtain ⟨m, hm, rfl⟩ := List.mem_map.mp hm2
  by_cases hc : (m.round_index == g.event.round_index && m.winner_id.isNone) = true
  · rw [if_pos hc] at hw ⊢
    rw [resolveMatch_left, resolveMatch_right]
    exact resolveMatch_winner_mem m now _ w hw
  · rw [if_neg hc] at hw ⊢
    exact hwin m hm w hw

theorem hmax_resolveRound (g : GuildState) (now : Nat) (r : Nat)
    (hmax : ∀ m ∈ g.matchRows, m.round_index ≤ r) :
    ∀ m2 ∈ (resolveRound g now).1.matchRows, m2.round_index ≤ r := by
  rw [resolveRound_fst_matchRows]
  intro m2 hm2
  obtain ⟨m, hm, rfl⟩ := List.mem_map.mp hm2
  by_cases hc : (m.round_index == g.event.round_index && m.winner_id.isNone) = true
  · rw [if_pos hc, resolveMatch_round]
    exact hmax m hm
  · rw [if_neg hc]
    exact hmax m hm

/-- Under the invariant that every recorded winner is one of its match's two fighters,
the winners test in `r1Leftovers` is redundant: the leftovers are just the pool
members who never fought. -/
theorem r1Leftovers_eq_foughtFilter (g : GuildState)
    (hwin : ∀ m ∈ g.matchRows, ∀ w, m.winner_id = some w →
      w = m.left_id ∨ w = m.right_id) :
    r1Leftovers g = (r1Pool g.entrants).filter
      (fun i => !((foughtIds (roundMatches g.matchRows 1)).contains i)) := by
  rw [r1Leftovers]
  apply List.filter_congr
  intro i _
  by_cases hf : ((foughtIds (roundMatches g.matchRows 1)).contains i) = true
  · rw [hf]
    rfl
  · have hf2 : ((foughtIds (roundMatches g.matchRows 1)).contains i) = false := by
      cases hx : (foughtIds (roundMatches g.matchRows 1)).contains i
      · rfl
      · exact absurd hx hf
    rw [hf2]
    have hwinc : (((roundMatches g.matchRows 1).filterMap
        MatchRow.winner_id).contains i) = false := by
      cases hx : ((roundMatches g.matchRows 1).filterMap
          MatchRow.winner_id).contains i
      · rfl
      · exfalso
        have hi : i ∈ (roundMatches g.matchRows 1).filterMap MatchRow.winner_id := by
          simpa using hx
        obtain ⟨m, hm, hwm⟩ := List.mem_filterMap.mp hi
        have hm2 : m ∈ g.matchRows := (List.mem_filter.mp hm).1
        have hlr := hwin m hm2 i hwm
        have hif : i ∈ foughtIds (roundMatches g.matchRows 1) := by
          rw [mem_foughtIds]
          exact ⟨m, hm, hlr⟩
        have : ((foughtIds (roundMatches g.matchRows 1)).contains i) = true := by
          simpa using hif
        rw [this] at hf2
        simp at hf2
    rw [hwinc]
    rfl

theorem r1Leftovers_resolveRound (g : GuildState) (now : Nat)
    (hwin : ∀ m ∈ g.matchRows, ∀ w, m.winner_id = some w →
      w = m.left_id ∨ w = m.right_id) :
    r1Leftovers (resolveRound g now).1 = r1Leftovers g := by
  rw [r1Leftovers_eq_foughtFilter _ (hwin_resolveRound g now hwin),
      r1Leftovers_eq_foughtFilter g hwin, resolveRound_fst_entrants,
      resolveRound_roundMatches, foughtIds_map_resolve]

theorem r1Leftovers_retally (g gt : GuildState) (hre : Retally g gt) :
    r1Leftovers gt = r1Leftovers g := by
  obtain ⟨hev, hent, hnid, hch, hf2⟩ := hre
  have hrm := sameShape_filter (p := fun m => m.round_index == 1)
    (fun a b hab => by
      show (b.round_index == 1) = (a.round_index == 1)
      rw [hab.2.1]) hf2
  rw [r1Leftovers, r1Leftovers, hent]
  simp only [roundMatches]
  rw [sameShape_foughtIds hrm, sameShape_winners hrm]

theorem roundMatches_append (l1 l2 : List MatchRow) (r : Nat) :
    roundMatches (l1 ++ l2) r = roundMatches l1 r ++ roundMatches l2 r := by
  rw [roundMatches, roundMatches, roundMatches, List.filter_append]

theorem undecided_append (l1 l2 : List MatchRow) (r : Nat) :
    undecided (l1 ++ l2) r = undecided l1 r ++ undecided l2 r := by
  rw [undecided, undecided, undecided, List.filter_append]

theorem insertMatch_roundMatches_same (g : GuildState) (r lid rid endt : Nat) :
    roundMatches (insertMatch g r lid rid endt).matchRows r =
      roundMatches g.matchRows r ++ [⟨g.nextMatchId, r, lid, rid, endt, 0, 0, none⟩] := by
  rw [insertMatch_matchRows, roundMatches_append]
  congr 1
  rw [roundMatches]
  simp

theorem insertMatch_undecided_same (g : GuildState) (r lid rid endt : Nat) :
    undecided (insertMatch g r lid rid endt).matchRows r =
      undecided g.matchRows r ++ [⟨g.nextMatchId, r, lid, rid, endt, 0, 0, none⟩] := by
  rw [insertMatch_matchRows, undecided_append]
  congr 1
  rw [undecided]
  simp

theorem insertMatch_winners_same (g : GuildState) (r lid rid endt : Nat) :
    (roundMatches (insertMatch g r lid rid endt).matchRows r).filterMap
      MatchRow.winner_id =
    (roundMatches g.matchRows r).filterMap MatchRow.winner_id := by
  rw [insertMatch_roundMatches_same, List.filterMap_append]
  simp

theorem sameShape_mem_left {α β : Type} {R : α → β → Prop} :
    ∀ {ms : List α} {ms' : List β}, List.Forall₂ R ms ms' →
      ∀ a ∈ ms, ∃ b ∈ ms', R a b := by
  intro ms ms' h
  induction h with
  | nil => intro a ha; simp at ha
  | @cons a2 b2 as bs hab htl ih =>
    intro a ha
    rcases List.mem_cons.mp ha with h1 | h1
    · exact ⟨b2, List.mem_cons_self _ _, h1 ▸ hab⟩
    · obtain ⟨b, hb, hbr⟩ := ih a h1
      exact ⟨b, List.mem_cons_of_mem _ hb, hbr⟩

theorem getLast?_mem : ∀ (l : List Nat) (x : Nat), l.getLast? = some x → x ∈ l
  | [], x, h => by simp at h
  | [a], x, h => by
    simp only [List.getLast?_singleton, Option.some.injEq] at h
    simp [h]
  | a :: b :: rest, x, h => by
    rw [List.getLast?_cons_cons] at h
    exact List.mem_cons_of_mem a (getLast?_mem (b :: rest) x h)

theorem pairConsec_cover_even :
    ∀ (l : List Nat), l.length % 2 = 0 → ∀ a ∈ l,
      ∃ p ∈ pairConsec l, a = p.1 ∨ a = p.2
  | [], _, a, ha => by simp at ha
  | [x], h, a, ha => by simp at h
  | x :: y :: rest, h, a, ha => by
    have h2 : rest.length % 2 = 0 := by
      simp only [List.length_cons] at h
      omega
    simp only [pairConsec, List.mem_cons] at *
    rcases ha with rfl | rfl | ha
    · exact ⟨(a, y), Or.inl rfl, Or.inl rfl⟩
    · exact ⟨(x, a), Or.inl rfl, Or.inr rfl⟩
    · obtain ⟨p, hp, hap⟩ := pairConsec_cover_even rest h2 a ha
      exact ⟨p, Or.inr hp, hap⟩

theorem pairConsec_cover_odd :
    ∀ (l : List Nat), l.length % 2 = 1 → ∀ a ∈ l,
      l.getLast? = some a ∨ ∃ p ∈ pairConsec l, a = p.1 ∨ a = p.2
  | [], h, a, ha => by simp at ha
  | [x], _, a, ha => by
    have hax : a = x := by simpa using ha
    subst hax
    exact Or.inl rfl
  | x :: y :: rest, h, a, ha => by
    have h2 : rest.length % 2 = 1 := by
      simp only [List.length_cons] at h
      omega
    have hrne : rest ≠ [] := by
      intro he
      rw [he] at h2
      simp at h2
    simp only [pairConsec, List.mem_cons] at ha ⊢
    rcases ha with rfl | rfl | ha
    · exact Or.inr ⟨(a, y), Or.inl rfl, Or.inl rfl⟩
    · exact Or.inr ⟨(x, a), Or.inl rfl, Or.inr rfl⟩
    · rcases pairConsec_cover_odd rest h2 a ha with hl | ⟨p, hp, hap⟩
      · left
        cases rest with
        | nil => exact absurd rfl hrne
        | cons z zs =>
          rw [List.getLast?_cons_cons, List.getLast?_cons_cons]
          exact hl
      · exact Or.inr ⟨p, Or.inr hp, hap⟩

theorem pairConsec_last_not_mem :
    ∀ (l : List Nat), l.Nodup → l.length % 2 = 1 → ∀ x, l.getLast? = some x →
      ∀ p ∈ pairConsec l, x ≠ p.1 ∧ x ≠ p.2
  | [], _, h, _, _, _, _ => by simp at h
  | [z], _, _, x, hx, p, hp => by simp [pairConsec] at hp
  | z :: y :: rest, hnd, h, x, hx, p, hp => by
    have h2 : rest.length % 2 = 1 := by
      simp only [List.length_cons] at h
      omega
    have hrne : rest ≠ [] := by
      intro he
      rw [he] at h2
      simp at h2
    have hx2 : rest.getLast? = some x := by
      cases rest with
      | nil => exact absurd rfl hrne
      | cons w ws =>
        rw [List.getLast?_cons_cons, List.getLast?_cons_cons] at hx
        exact hx
    have hxmem : x ∈ rest := getLast?_mem rest x hx2
    have hz := List.nodup_cons.mp hnd
    have hy := List.nodup_cons.mp hz.2
    simp only [pairConsec, List.mem_cons] at hp
    rcases hp with rfl | hp
    · constructor
      · intro he
        have he' : x = z := he
        exact hz.1 (he' ▸ List.mem_cons_of_mem y hxmem)
      · intro he
        have he' : x = y := he
        exact hy.1 (he' ▸ hxmem)
    · exact pairConsec_last_not_mem rest hy.2 h2 x hx2 p hp

theorem filter_eq_single (p : Nat → Bool) :
    ∀ (l : List Nat), l.Nodup → ∀ x ∈ l, (∀ i ∈ l, p i = true ↔ i = x) →
      l.filter p = [x] := by
  intro l
  induction l with
  | nil => intro _ x hx; simp at hx
  | cons a as ih =>
    intro hnd x hx hiff
    have hna := List.nodup_cons.mp hnd
    by_cases hax : a = x
    · subst hax
      rw [List.filter_cons, if_pos ((hiff a (List.mem_cons_self a as)).mpr rfl)]
      have has : as.filter p = [] := by
        rw [List.filter_eq_nil_iff]
        intro i hi hpi
        have := (hiff i (List.mem_cons_of_mem a hi)).mp hpi
        exact hna.1 (this ▸ hi)
      rw [has]
    · have hxas : x ∈ as := by
        rcases List.mem_cons.mp hx with h1 | h1
        · exact absurd h1.symm hax
        · exact h1
      rw [List.filter_cons, if_neg ?hpa]
      case hpa =>
        intro hpa
        exact hax ((hiff a (List.mem_cons_self a as)).mp hpa)
      exact ih hna.2 x hxas (fun i hi => hiff i (List.mem_cons_of_mem a hi))

theorem r1Leftovers_extendEvent (g : GuildState) (e : Nat) :
    r1Leftovers (extendEvent g e) = r1Leftovers g := rfl

theorem r1Leftovers_insert_sub (g : GuildState) (lid rid endt : Nat) :
    ∀ i ∈ r1Leftovers (insertMatch g 1 lid rid endt),
      i ∈ r1Leftovers g ∧ i ≠ lid ∧ i ≠ rid := by
  intro i hi
  rw [r1Leftovers] at hi
  have hi2 := List.mem_filter.mp hi
  have hsplit := hi2.2
  rw [Bool.and_eq_true] at hsplit
  have hf : i ∉ foughtIds (roundMatches (insertMatch g 1 lid rid endt).matchRows 1) := by
    have h1 := hsplit.1
    simp at h1
    exact h1
  have hw0 : ∀ x ∈ roundMatches (insertMatch g 1 lid rid endt).matchRows 1,
      ¬ x.winner_id = some i := by
    have h1 := hsplit.2
    simp at h1
    exact h1
  rw [insertMatch_roundMatches_same, foughtIds_append] at hf
  rw [insertMatch_roundMatches_same] at hw0
  have hwold : ∀ x ∈ roundMatches g.matchRows 1, ¬ x.winner_id = some i :=
    fun x hx => hw0 x (List.mem_append.mpr (Or.inl hx))
  have hnew : foughtIds [(⟨g.nextMatchId, 1, lid, rid, endt, 0, 0, none⟩ : MatchRow)]
      = [lid, rid] := rfl
  rw [hnew] at hf
  have hfold : i ∉ foughtIds (roundMatches g.matchRows 1) := fun hxx =>
    hf (List.mem_append.mpr (Or.inl hxx))
  have hnl : i ≠ lid := fun he =>
    hf (List.mem_append.mpr (Or.inr (by rw [he]; exact List.mem_cons_self _ _)))
  have hnr : i ≠ rid := fun he =>
    hf (List.mem_append.mpr (Or.inr (by
      rw [he]
      exact List.mem_cons_of_mem _ (List.mem_cons_self _ _))))
  refine ⟨List.mem_filter.mpr ⟨hi2.1, ?_⟩, hnl, hnr⟩
  simp [hfold]
  exact hwold

theorem r1Leftovers_insert_of_nil (g : GuildState) (lid rid endt : Nat)
    (hnil : r1Leftovers g = []) :
    r1Leftovers (insertMatch g 1 lid rid endt) = [] := by
  cases hx : r1Leftovers (insertMatch g 1 lid rid endt) with
  | nil => rfl
  | cons a as =>
    have ha := r1Leftovers_insert_sub g lid rid endt a
      (hx ▸ List.mem_cons_self a as)
    rw [hnil] at ha
    exact absurd ha.1 (List.not_mem_nil a)

theorem r1Leftovers_insert_of_single (g : GuildState) (x rid endt : Nat)
    (hl : r1Leftovers g = [x]) :
    r1Leftovers (insertMatch g 1 x rid endt) = [] := by
  cases hx : r1Leftovers (insertMatch g 1 x rid endt) with
  | nil => rfl
  | cons a as =>
    have ha := r1Leftovers_insert_sub g x rid endt a
      (hx ▸ List.mem_cons_self a as)
    rw [hl] at ha
    have hax : a = x := by simpa using ha.1
    exact absurd hax ha.2.1

theorem foldl_insertMatch_full (ps : List (Nat × Nat)) (g : GuildState) (r endt : Nat) :
    ∃ news : List MatchRow,
      (ps.foldl (fun s p => insertMatch s r p.1 p.2 endt) g).matchRows =
        g.matchRows ++ news ∧
      List.Forall₂ (fun (p : Nat × Nat) (m : MatchRow) => m.round_index = r ∧
        m.left_id = p.1 ∧ m.right_id = p.2 ∧ m.winner_id = none) ps news ∧
      (ps.foldl (fun s p => insertMatch s r p.1 p.2 endt) g).event = g.event ∧
      (ps.foldl (fun s p => insertMatch s r p.1 p.2 endt) g).entrants = g.entrants ∧
      (ps.foldl (fun s p => insertMatch s r p.1 p.2 endt) g).champion = g.champion := by
  induction ps generalizing g with
  | nil => exact ⟨[], by simp, List.Forall₂.nil, rfl, rfl, rfl⟩
  | cons p ps ih =>
    obtain ⟨news, hmr, hf2, hev, hent, hch⟩ := ih (insertMatch g r p.1 p.2 endt)
    refine ⟨⟨g.nextMatchId, r, p.1, p.2, endt, 0, 0, none⟩ :: news, ?_, ?_, ?_, ?_, ?_⟩
    · rw [List.foldl_cons, hmr, insertMatch_matchRows]
      simp
    · exact List.Forall₂.cons ⟨rfl, rfl, rfl, rfl⟩ hf2
    · rw [List.foldl_cons, hev]
      rfl
    · rw [List.foldl_cons, hent]
      rfl
    · rw [List.foldl_cons, hch]
      rfl

/-- The invariant the engine maintains between scheduler ticks while voting: the event
is in the voting state in round `r ≥ 1`, the current round holds `U ≥ 1` undecided and
`D` decided matches, every match belongs to a round ≤ `r`, every recorded winner is one
of its match's two fighters. -/
def RoundInvCore (g : GuildState) (r U D : Nat) : Prop :=
  g.event.state = .voting ∧
  g.event.round_index = r ∧
  1 ≤ r ∧
  1 ≤ U ∧
  (undecided g.matchRows r).length = U ∧
  ((roundMatches g.matchRows r).filterMap MatchRow.winner_id).length = D ∧
  (∀ m ∈ g.matchRows, m.round_index ≤ r) ∧
  (∀ m ∈ g.matchRows, ∀ w, m.winner_id = some w → w = m.left_id ∨ w = m.right_id)

/-- The steady-state invariant: additionally, in round 1 no unpaired leftover is
pending (the special-match bookkeeping has been settled). -/
def RoundInv (g : GuildState) (r U D : Nat) : Prop :=
  RoundInvCore g r U D ∧ (r = 1 → r1Leftovers g = [])

/-- The round-1 state right after entry close of an odd pool: exactly one unpaired
leftover `x` is pending and no match is decided yet. -/
def RoundInvPending (g : GuildState) (U x : Nat) : Prop :=
  RoundInvCore g 1 U 0 ∧ r1Leftovers g = [x]

theorem extendEvent_matchRows (g : GuildState) (e : Nat) :
    (extendEvent g e).matchRows = g.matchRows := rfl

theorem extendEvent_state (g : GuildState) (e : Nat) :
    (extendEvent g e).event.state = .voting := rfl

theorem extendEvent_round (g : GuildState) (e : Nat) :
    (extendEvent g e).event.round_index = g.event.round_index := rfl

theorem insertMatch_event (g : GuildState) (r lid rid endt : Nat) :
    (insertMatch g r lid rid endt).event = g.event := rfl

theorem tiedIds_nil (ms : List MatchRow) (r : Nat)
    (hneq : ∀ m ∈ undecided ms r, m.left_votes ≠ m.right_votes) :
    tiedIds ms r = [] := by
  rw [tiedIds, List.filterMap_eq_nil_iff]
  intro m hm
  rw [if_neg (hneq m hm)]

/-- When every undecided match of the round carries unequal tallies at the deadline,
no match is reopened and the scheduler's voting-end branch hands over to
`advance_to_next_round` on the resolved state. -/
theorem votingStep_advance (gt : GuildState) (now : Nat) (order : List Nat)
    (hst : gt.event.state = .voting)
    (hle : gt.event.entry_end_utc ≤ now)
    (hneq : ∀ m ∈ undecided gt.matchRows gt.event.round_index,
      m.left_votes ≠ m.right_votes) :
    votingStep gt now order = advanceStep (resolveRound gt now).1 now order := by
  have htied : tiedIds gt.matchRows gt.event.round_index = [] :=
    tiedIds_nil _ _ hneq
  rw [votingStep, if_pos hst, if_neg (Nat.not_lt.mpr hle)]
  simp only [resolveRound_snd, htied, List.isEmpty_nil, Bool.not_true,
    Bool.false_eq_true, if_false]

theorem retally_roundMatches (g gt : GuildState) (hre : Retally g gt) (r : Nat) :
    List.Forall₂ SameShape (roundMatches g.matchRows r)
      (roundMatches gt.matchRows r) := by
  simp only [roundMatches]
  exact sameShape_filter (fun a b hab => by
    show (b.round_index == r) = (a.round_index == r)
    rw [hab.2.1]) hre.2.2.2.2

theorem retally_undecided (g gt : GuildState) (hre : Retally g gt) (r : Nat) :
    List.Forall₂ SameShape (undecided g.matchRows r) (undecided gt.matchRows r) := by
  simp only [undecided]
  exact sameShape_filter (fun a b hab => by
    show (b.round_index == r && b.winner_id.isNone)
      = (a.round_index == r && a.winner_id.isNone)
    rw [hab.2.1, hab.2.2.2.2.2]) hre.2.2.2.2

theorem retally_hmax (g gt : GuildState) (hre : Retally g gt) (r : Nat)
    (hmax : ∀ m ∈ g.matchRows, m.round_index ≤ r) :
    ∀ m ∈ gt.matchRows, m.round_index ≤ r := by
  intro m hm
  obtain ⟨a, ha, hab⟩ := sameShape_mem_right hre.2.2.2.2 m hm
  rw [hab.2.1]
  exact hmax a ha

theorem retally_hwin (g gt : GuildState) (hre : Retally g gt)
    (hwin : ∀ m ∈ g.matchRows, ∀ w, m.winner_id = some w →
      w = m.left_id ∨ w = m.right_id) :
    ∀ m ∈ gt.matchRows, ∀ w, m.winner_id = some w →
      w = m.left_id ∨ w = m.right_id := by
  intro m hm w hw
  obtain ⟨a, ha, hab⟩ := sameShape_mem_right hre.2.2.2.2 m hm
  rw [hab.2.2.1, hab.2.2.2.1]
  rw [hab.2.2.2.2.2] at hw
  exact hwin a ha w hw

theorem roundMatches_gt_nil (ms : List MatchRow) (r : Nat)
    (hmax : ∀ m ∈ ms, m.round_index ≤ r) :
    roundMatches ms (r + 1) = [] := by
  rw [roundMatches, List.filter_eq_nil_iff]
  intro m hm hbeq
  have h1 : m.round_index = r + 1 := by simpa using hbeq
  have h2 := hmax m hm
  omega

theorem news_round_all (ps : List (Nat × Nat)) (news : List MatchRow) (r2 : Nat)
    (hf : List.Forall₂ (fun (p : Nat × Nat) (m : MatchRow) => m.round_index = r2 ∧
      m.left_id = p.1 ∧ m.right_id = p.2 ∧ m.winner_id = none) ps news) :
    ∀ m ∈ news, m.round_index = r2 ∧ m.winner_id = none := by
  intro m hm
  obtain ⟨p, hp, hr⟩ := sameShape_mem_right hf m hm
  exact ⟨hr.1, hr.2.2.2⟩

theorem undecided_news (news : List MatchRow) (r2 : Nat)
    (hall : ∀ m ∈ news, m.round_index = r2 ∧ m.winner_id = none) :
    undecided news r2 = news ∧
    (roundMatches news r2).filterMap MatchRow.winner_id = [] := by
  constructor
  · rw [undecided, List.filter_eq_self]
    intro m hm
    have h := hall m hm
    simp [h.1, h.2]
  · rw [List.filterMap_eq_nil_iff]
    intro m hm
    have hm2 : m ∈ news := (List.mem_filter.mp hm).1
    exact (hall m hm2).2

theorem roundMatches_news (news : List MatchRow)
    (hall : ∀ m ∈ news, m.round_index = 1 ∧ m.winner_id = none) :
    roundMatches news 1 = news := by
  rw [roundMatches, List.filter_eq_self]
  intro m hm
  simp [(hall m hm).1]

theorem losersWithVotes_ne_nil (ms : List MatchRow)
    (h : ∃ m ∈ ms, ∃ w, m.winner_id = some w) :
    losersWithVotes ms ≠ [] := by
  intro hnil
  rw [losersWithVotes, List.filterMap_eq_nil_iff] at hnil
  obtain ⟨m, hm, w, hw⟩ := h
  have h2 := hnil m hm
  simp only [hw] at h2
  split at h2 <;> simp at h2

theorem exists_winner_of_length (ms : List MatchRow)
    (h : 1 ≤ (ms.filterMap MatchRow.winner_id).length) :
    ∃ m ∈ ms, ∃ w, m.winner_id = some w := by
  cases hl : ms.filterMap MatchRow.winner_id with
  | nil => rw [hl] at h; simp at h
  | cons w ws =>
    have hw : w ∈ ms.filterMap MatchRow.winner_id := by
      rw [hl]
      exact List.mem_cons_self _ _
    obtain ⟨m, hm, hmw⟩ := List.mem_filterMap.mp hw
    exact ⟨m, hm, w, hmw⟩

/-- Whenever some match of the round is decided, a loser exists, so
`_pick_leftover_opponent` finds an opponent (priority 1 fires). -/
theorem pickLeftoverOpponent_some (ms : List MatchRow)
    (h : ∃ m ∈ ms, ∃ w, m.winner_id = some w) :
    ∃ opp, pickLeftoverOpponent ms (losersWithVotes ms) = some opp := by
  cases hl : losersWithVotes ms with
  | nil => exact absurd hl (losersWithVotes_ne_nil ms h)
  | cons t ts => exact ⟨(bestLoser t ts).1, rfl⟩

/-- Scheduler tick, resolution phase: when every undecided match of the current round
carries unequal tallies, resolving the round leaves no undecided match, turns every
round-`r` match into a decided one (as many winners as matches), and preserves the
per-match invariants and the round-1 leftover set. -/
theorem resolveRound_complete (gt : GuildState) (now : Nat) (r : Nat)
    (hr : gt.event.round_index = r)
    (hneq : ∀ m ∈ undecided gt.matchRows gt.event.round_index,
      m.left_votes ≠ m.right_votes)
    (hwin : ∀ m ∈ gt.matchRows, ∀ w, m.winner_id = some w →
      w = m.left_id ∨ w = m.right_id)
    (hmax : ∀ m ∈ gt.matchRows, m.round_index ≤ r) :
    undecided (resolveRound gt now).1.matchRows r = [] ∧
    ((roundMatches (resolveRound gt now).1.matchRows r).filterMap
        MatchRow.winner_id).length = (roundMatches gt.matchRows r).length ∧
    (∀ m ∈ (resolveRound gt now).1.matchRows, m.round_index ≤ r) ∧
    (∀ m ∈ (resolveRound gt now).1.matchRows, ∀ w, m.winner_id = some w →
      w = m.left_id ∨ w = m.right_id) ∧
    r1Leftovers (resolveRound gt now).1 = r1Leftovers gt := by
  subst hr
  refine ⟨undecided_resolve_nil gt now hneq, ?_, hmax_resolveRound gt now _ hmax,
    hwin_resolveRound gt now hwin, r1Leftovers_resolveRound gt now hwin⟩
  rw [resolveRound_roundMatches]
  apply length_winners_resolve
  · intro m hm
    exact (List.mem_filter.mp hm).2
  · intro m hm hw
    apply hneq
    rw [undecided_eq]
    refine List.mem_filter.mpr ⟨hm, ?_⟩
    show m.winner_id.isNone = true
    rw [hw]
    rfl

/-- Outside round 1, or in round 1 with no pending leftover, `advance_to_next_round`
proceeds directly with the decided winners of the current round. -/
theorem advanceStep_core (g : GuildState) (now : Nat) (order : List Nat)
    (h : g.event.round_index ≠ 1 ∨ r1Leftovers g = []) :
    advanceStep g now order = advanceCore g now order
      ((roundMatches g.matchRows g.event.round_index).filterMap MatchRow.winner_id)
      0 := by
  simp only [advanceStep]
  by_cases hr : g.event.round_index = 1
  · have hl : r1Leftovers g = [] := by
      rcases h with h | h
      · exact absurd hr h
      · exact h
    simp only [hr, hl, List.length_nil]
    simp
  · rw [if_neg hr]

theorem buildNext_fields (g : GuildState) (now : Nat) (order ws : List Nat)
    (h2 : 2 ≤ ws.length) :
    ∃ news : List MatchRow,
      (buildNext g now order ws).matchRows = g.matchRows ++ news ∧
      List.Forall₂ (fun (p : Nat × Nat) (m : MatchRow) =>
        m.round_index = g.event.round_index + 1 ∧ m.left_id = p.1 ∧
        m.right_id = p.2 ∧ m.winner_id = none) (pairConsec order) news ∧
      (buildNext g now order ws).event.state = .voting ∧
      (buildNext g now order ws).event.round_index = g.event.round_index + 1 := by
  obtain ⟨news, hmr, hf2, hev, hent, hch⟩ := foldl_insertMatch_full
    (pairConsec order) g (g.event.round_index + 1) (now + g.event.vote_seconds)
  refine ⟨news, ?_, hf2, ?_, ?_⟩
  · rw [buildNext, if_pos h2]
    exact hmr
  · rw [buildNext, if_pos h2]
  · rw [buildNext, if_pos h2]

/-- advance_to_next_round on an even winners pool of at least two: the shuffled pool
is paired consecutively into the next round, restoring the invariant with `W / 2`
fresh undecided matches and no decided ones. -/
theorem advanceCore_even (g : GuildState) (now : Nat) (order ws : List Nat) (r : Nat)
    (hr : g.event.round_index = r) (h1r : 1 ≤ r)
    (hmax : ∀ m ∈ g.matchRows, m.round_index ≤ r)
    (hwin : ∀ m ∈ g.matchRows, ∀ w, m.winner_id = some w →
      w = m.left_id ∨ w = m.right_id)
    (heven : ws.length % 2 = 0) (h2 : 2 ≤ ws.length)
    (hperm : order.Perm ws) :
    RoundInv (advanceCore g now order ws 0) (r + 1) (ws.length / 2) 0 := by
  subst hr
  have hne1 : ¬ (ws.length = 1 ∧ (0 : Nat) = 0) := by omega
  have hnodd : ¬ (1 ≤ ws.length ∧ ws.length % 2 = 1) := by omega
  have hcore : advanceCore g now order ws 0 = buildNext g now order ws := by
    rw [advanceCore, if_neg hne1, if_neg hnodd]
  rw [hcore]
  obtain ⟨news, hmr, hf2, hstv, hrd⟩ := buildNext_fields g now order ws h2
  have hall := news_round_all _ news _ hf2
  have hnews := undecided_news news _ hall
  have hol := hperm.length_eq
  have hlen : news.length = ws.length / 2 := by
    have h1 := List.Forall₂.length_eq hf2
    rw [pairConsec_length] at h1
    omega
  refine ⟨⟨hstv, hrd, by omega, by omega, ?_, ?_, ?_, ?_⟩,
    fun h1 => absurd h1 (by omega)⟩
  · rw [hmr, undecided_append, hnews.1, undecided_eq,
      roundMatches_gt_nil g.matchRows _ hmax, List.filter_nil, List.nil_append, hlen]
  · rw [hmr, roundMatches_append, roundMatches_gt_nil g.matchRows _ hmax,
      List.nil_append, hnews.2]
    rfl
  · rw [hmr]
    intro m hm
    rcases List.mem_append.mp hm with h | h
    · exact Nat.le_succ_of_le (hmax m h)
    · rw [(hall m h).1]
  · rw [hmr]
    intro m hm w hw
    rcases List.mem_append.mp hm with h | h
    · exact hwin m h w hw
    · rw [(hall m h).2] at hw
      simp at hw

/-- advance_to_next_round on an odd winners pool of at least three: a loser exists, so
exactly one same-round special match is inserted pairing the maximum-id winner against
the picked opponent — one extra undecided match in the same round. -/
theorem advanceCore_odd (g : GuildState) (now : Nat) (order ws : List Nat) (r : Nat)
    (hr : g.event.round_index = r) (h1r : 1 ≤ r)
    (hund : undecided g.matchRows r = [])
    (hws : ws = (roundMatches g.matchRows r).filterMap MatchRow.winner_id)
    (hmax : ∀ m ∈ g.matchRows, m.round_index ≤ r)
    (hwin : ∀ m ∈ g.matchRows, ∀ w, m.winner_id = some w →
      w = m.left_id ∨ w = m.right_id)
    (hodd : ws.length % 2 = 1) (h2 : 2 ≤ ws.length)
    (hleft : r = 1 → r1Leftovers g = []) :
    RoundInv (advanceCore g now order ws 0) r 1 ws.length := by
  subst hr
  have hne1 : ¬ (ws.length = 1 ∧ (0 : Nat) = 0) := by omega
  have hoddc : 1 ≤ ws.length ∧ ws.length % 2 = 1 := ⟨by omega, hodd⟩
  obtain ⟨opp, hpick⟩ := pickLeftoverOpponent_some
    (roundMatches g.matchRows g.event.round_index)
    (exists_winner_of_length _ (by rw [← hws]; omega))
  have hcore : advanceCore g now order ws 0 =
      extendEvent (insertMatch g g.event.round_index (ws.foldl max 0) opp
        (now + g.event.vote_seconds)) (now + g.event.vote_seconds) := by
    rw [advanceCore, if_neg hne1, if_pos hoddc]
    simp only [hpick]
  rw [hcore]
  refine ⟨⟨rfl, rfl, h1r, Nat.le_refl 1, ?_, ?_, ?_, ?_⟩, ?_⟩
  · rw [extendEvent_matchRows, insertMatch_undecided_same, hund, List.nil_append]
    rfl
  · rw [extendEvent_matchRows, insertMatch_winners_same, ← hws]
  · rw [extendEvent_matchRows, insertMatch_matchRows]
    intro m hm
    rcases List.mem_append.mp hm with h | h
    · exact hmax m h
    · have hme : m = ⟨g.nextMatchId, g.event.round_index, ws.foldl max 0, opp,
        now + g.event.vote_seconds, 0, 0, none⟩ := by simpa using h
      rw [hme]
  · rw [extendEvent_matchRows, insertMatch_matchRows]
    intro m hm w hw
    rcases List.mem_append.mp hm with h | h
    · exact hwin m h w hw
    · have hme : m = ⟨g.nextMatchId, g.event.round_index, ws.foldl max 0, opp,
        now + g.event.vote_seconds, 0, 0, none⟩ := by simpa using h
      rw [hme] at hw
      simp at hw
  · intro h1
    rw [r1Leftovers_extendEvent, h1]
    exact r1Leftovers_insert_of_nil g _ _ _ (hleft h1)

/-- The round-1 leftover branch of advance_to_next_round: with a pending leftover `x`
and at least one decided match, one special match `x` vs the picked opponent is
inserted in round 1, clearing the leftover. -/
theorem advanceStep_leftover (g : GuildState) (now : Nat) (order : List Nat) (x : Nat)
    (hr : g.event.round_index = 1)
    (hl : r1Leftovers g = [x])
    (hund : undecided g.matchRows 1 = [])
    (hW : 1 ≤ ((roundMatches g.matchRows 1).filterMap MatchRow.winner_id).length)
    (hmax : ∀ m ∈ g.matchRows, m.round_index ≤ 1)
    (hwin : ∀ m ∈ g.matchRows, ∀ w, m.winner_id = some w →
      w = m.left_id ∨ w = m.right_id) :
    RoundInv (advanceStep g now order) 1 1
      ((roundMatches g.matchRows 1).filterMap MatchRow.winner_id).length := by
  obtain ⟨opp, hpick⟩ := pickLeftoverOpponent_some (roundMatches g.matchRows 1)
    (exists_winner_of_length _ hW)
  have hstep : advanceStep g now order =
      extendEvent (insertMatch g 1 x opp (now + g.event.vote_seconds))
        (now + g.event.vote_seconds) := by
    simp only [advanceStep, hr, hl, hpick, List.length_cons, List.length_nil,
      List.headD_cons]
    simp
  rw [hstep]
  refine ⟨⟨rfl, hr, Nat.le_refl 1, Nat.le_refl 1, ?_, ?_, ?_, ?_⟩, ?_⟩
  · rw [extendEvent_matchRows, insertMatch_undecided_same, hund, List.nil_append]
    rfl
  · rw [extendEvent_matchRows, insertMatch_winners_same]
  · rw [extendEvent_matchRows, insertMatch_matchRows]
    intro m hm
    rcases List.mem_append.mp hm with h | h
    · exact hmax m h
    · have hme : m = ⟨g.nextMatchId, 1, x, opp,
        now + g.event.vote_seconds, 0, 0, none⟩ := by simpa using h
      rw [hme]
  · rw [extendEvent_matchRows, insertMatch_matchRows]
    intro m hm w hw
    rcases List.mem_append.mp hm with h | h
    · exact hwin m h w hw
    · have hme : m = ⟨g.nextMatchId, 1, x, opp,
        now + g.event.vote_seconds, 0, 0, none⟩ := by simpa using h
      rw [hme] at hw
      simp at hw
  · intro _
    rw [r1Leftovers_extendEvent]
    exact r1Leftovers_insert_of_single g x opp _ hl

/-- One scheduler tick from an invariant state: with `W = U + D` matches in the round,
the tick either closes the event with a champion (`W = 1`), builds the next round of
`W / 2` matches (`W` even), or inserts the same-round special match (`W` odd). -/
theorem envStep_inv (g g2 : GuildState) (r U D : Nat)
    (hinv : RoundInv g r U D) (hstep : EnvStep g g2) :
    (g2.event.state = .closed ∧ g2.champion.isSome = true) ∨
    (2 ≤ U + D ∧ (U + D) % 2 = 0 ∧ RoundInv g2 (r + 1) ((U + D) / 2) 0) ∨
    (2 ≤ U + D ∧ (U + D) % 2 = 1 ∧ RoundInv g2 r 1 (U + D)) := by
  obtain ⟨⟨hst, hrd, h1r, h1U, hU, hD, hmax, hwin⟩, hleft⟩ := hinv
  obtain ⟨gt, now, order, hre, hle, hneq, hperm, hg2⟩ := hstep
  have hevt : gt.event = g.event := hre.1
  have hmaxt : ∀ m ∈ gt.matchRows, m.round_index ≤ r := retally_hmax g gt hre r hmax
  have hwint := retally_hwin g gt hre hwin
  have hrt : gt.event.round_index = r := by rw [hevt, hrd]
  have hUt : (undecided gt.matchRows r).length = U := by
    rw [← List.Forall₂.length_eq (retally_undecided g gt hre r)]
    exact hU
  have hDt : ((roundMatches gt.matchRows r).filterMap MatchRow.winner_id).length
      = D := by
    rw [sameShape_winners (retally_roundMatches g gt hre r), hD]
  have hRMlen : (roundMatches gt.matchRows r).length = U + D := by
    have hpart := winners_undecided_partition (roundMatches gt.matchRows r)
    rw [← undecided_eq] at hpart
    omega
  obtain ⟨hund', hW', hmax', hwin', hlo'⟩ :=
    resolveRound_complete gt now r hrt hneq hwint hmaxt
  have hg2' : g2 = advanceStep (resolveRound gt now).1 now order := by
    rw [hg2, votingStep_advance gt now order (by rw [hevt]; exact hst) hle hneq]
  have hr' : (resolveRound gt now).1.event.round_index = r := by
    rw [resolveRound_fst_event, hrt]
  have hlo'' : r1Leftovers (resolveRound gt now).1 = r1Leftovers g := by
    rw [hlo', r1Leftovers_retally g gt hre]
  have hWlen : ((roundMatches (resolveRound gt now).1.matchRows r).filterMap
      MatchRow.winner_id).length = U + D := by
    rw [hW', hRMlen]
  have hleft' : r = 1 → r1Leftovers (resolveRound gt now).1 = [] := fun h1 => by
    rw [hlo'']
    exact hleft h1
  have hcore : advanceStep (resolveRound gt now).1 now order =
      advanceCore (resolveRound gt now).1 now order
        ((roundMatches (resolveRound gt now).1.matchRows r).filterMap
          MatchRow.winner_id) 0 := by
    have h := advanceStep_core (resolveRound gt now).1 now order ?_
    · rw [hr'] at h
      exact h
    · by_cases h1 : r = 1
      · exact Or.inr (hleft' h1)
      · exact Or.inl (by rw [hr']; exact h1)
  rw [hrt] at hperm
  rcases Nat.lt_or_ge (U + D) 2 with hlt | hge
  · left
    have hWeq : ((roundMatches (resolveRound gt now).1.matchRows r).filterMap
        MatchRow.winner_id).length = 1 := by omega
    obtain ⟨c, hc⟩ := List.length_eq_one.mp hWeq
    rw [hg2', hcore, hc]
    have hch := advanceCore_champion (resolveRound gt now).1 now order c
    refine ⟨hch.1, ?_⟩
    rw [hch.2]
    rfl
  · by_cases hpar : (U + D) % 2 = 0
    · right; left
      refine ⟨hge, hpar, ?_⟩
      rw [hg2', hcore]
      have hadv := advanceCore_even (resolveRound gt now).1 now order _ r hr' h1r
        hmax' hwin' (by rw [hWlen]; exact hpar) (by rw [hWlen]; exact hge) hperm
      rw [hWlen] at hadv
      exact hadv
    · right; right
      have hpar1 : (U + D) % 2 = 1 := by omega
      refine ⟨hge, hpar1, ?_⟩
      rw [hg2', hcore]
      have hadv := advanceCore_odd (resolveRound gt now).1 now order _ r hr' h1r
        hund' rfl hmax' hwin' (by rw [hWlen]; exact hpar1) (by rw [hWlen]; exact hge)
        hleft'
      rw [hWlen] at hadv
      exact hadv

/-- One scheduler tick from the pending-leftover state: the `U` primary matches
resolve, the leftover's special match is inserted in round 1, and the steady
invariant is restored with `U` decided and one undecided match. -/
theorem envStep_pending (g g2 : GuildState) (U x : Nat)
    (hinv : RoundInvPending g U x) (hstep : EnvStep g g2) :
    RoundInv g2 1 1 U := by
  obtain ⟨⟨hst, hrd, h1r, h1U, hU, hD, hmax, hwin⟩, hx⟩ := hinv
  obtain ⟨gt, now, order, hre, hle, hneq, hperm, hg2⟩ := hstep
  have hevt : gt.event = g.event := hre.1
  have hmaxt : ∀ m ∈ gt.matchRows, m.round_index ≤ 1 := retally_hmax g gt hre 1 hmax
  have hwint := retally_hwin g gt hre hwin
  have hrt : gt.event.round_index = 1 := by rw [hevt, hrd]
  have hUt : (undecided gt.matchRows 1).length = U := by
    rw [← List.Forall₂.length_eq (retally_undecided g gt hre 1)]
    exact hU
  have hDt : ((roundMatches gt.matchRows 1).filterMap MatchRow.winner_id).length
      = 0 := by
    rw [sameShape_winners (retally_roundMatches g gt hre 1), hD]
  have hRMlen : (roundMatches gt.matchRows 1).length = U := by
    have hpart := winners_undecided_partition (roundMatches gt.matchRows 1)
    rw [← undecided_eq] at hpart
    omega
  obtain ⟨hund', hW', hmax', hwin', hlo'⟩ :=
    resolveRound_complete gt now 1 hrt hneq hwint hmaxt
  have hg2' : g2 = advanceStep (resolveRound gt now).1 now order := by
    rw [hg2, votingStep_advance gt now order (by rw [hevt]; exact hst) hle hneq]
  have hr' : (resolveRound gt now).1.event.round_index = 1 := by
    rw [resolveRound_fst_event, hrt]
  have hlo'' : r1Leftovers (resolveRound gt now).1 = [x] := by
    rw [hlo', r1Leftovers_retally g gt hre, hx]
  have hWlen : ((roundMatches (resolveRound gt now).1.matchRows 1).filterMap
      MatchRow.winner_id).length = U := by
    rw [hW', hRMlen]
  have hadv := advanceStep_leftover (resolveRound gt now).1 now order x hr' hlo''
    hund' (by omega) hmax' hwin'
  rw [hWlen] at hadv
  rw [hg2']
  exact hadv

/-- Fuel induction: from any invariant state with `W = U + D` matches in the current
round, the tournament closes with a champion within `tickBound W` scheduler ticks. -/
theorem closes_of_roundInv :
    ∀ n g r U D, RoundInv g r U D → tickBound (U + D) ≤ n → ClosesWithin g n := by
  intro n
  induction n with
  | zero =>
    intro g r U D hinv hb
    have := tickBound_pos (U + D)
    omega
  | succ n ih =>
    intro g r U D hinv hb
    apply ClosesWithin.tick
    intro g2 hstep
    rcases envStep_inv g g2 r U D hinv hstep with hdone | ⟨h2, hpar, hinv2⟩ |
      ⟨h2, hpar, hinv2⟩
    · exact ClosesWithin.done g2 n hdone.1 hdone.2
    · apply ih g2 (r + 1) ((U + D) / 2) 0 hinv2
      have heq : tickBound (U + D) = 1 + tickBound ((U + D) / 2) := by
        rw [tickBound, if_neg (by omega), if_pos hpar]
      simp only [Nat.add_zero]
      omega
    · apply ih g2 r 1 (U + D) hinv2
      have heq1 : tickBound (U + D) = 2 + tickBound ((U + D + 1) / 2) := by
        rw [tickBound, if_neg (by omega), if_neg (by omega)]
      have heq2 : tickBound (1 + (U + D)) = 1 + tickBound ((U + D + 1) / 2) := by
        rw [Nat.add_comm 1 (U + D), tickBound, if_neg (by omega), if_pos (by omega)]
      omega

/-- From the pending-leftover state, one tick settles the special match and
`tickBound (1 + U)` more ticks finish the tournament. -/
theorem closes_of_pending (n : Nat) (g : GuildState) (U x : Nat)
    (hinv : RoundInvPending g U x) (hb : tickBound (1 + U) + 1 ≤ n) :
    ClosesWithin g n := by
  obtain ⟨m, rfl⟩ : ∃ m, n = m + 1 := ⟨n - 1, by omega⟩
  apply ClosesWithin.tick
  intro g2 hstep
  exact closes_of_roundInv m g2 1 1 U (envStep_pending g g2 U x hinv hstep)
    (by omega)

theorem getLast?_isSome : ∀ (l : List Nat), l ≠ [] → ∃ x, l.getLast? = some x
  | [], h => absurd rfl h
  | [a], _ => ⟨a, List.getLast?_singleton a⟩
  | a :: b :: rest, _ => by
    obtain ⟨x, hx⟩ := getLast?_isSome (b :: rest) (by simp)
    refine ⟨x, ?_⟩
    rw [List.getLast?_cons_cons]
    exact hx

theorem mem_foughtIds_news (news : List MatchRow) (order0 : List Nat)
    (hf2 : List.Forall₂ (fun (p : Nat × Nat) (m : MatchRow) =>
      m.round_index = 1 ∧ m.left_id = p.1 ∧ m.right_id = p.2 ∧
      m.winner_id = none) (pairConsec order0) news) (i : Nat) :
    i ∈ foughtIds news ↔ ∃ p ∈ pairConsec order0, i = p.1 ∨ i = p.2 := by
  rw [mem_foughtIds]
  constructor
  · rintro ⟨m, hm, h⟩
    obtain ⟨p, hp, hrel⟩ := sameShape_mem_right hf2 m hm
    rcases h with h | h
    · exact ⟨p, hp, Or.inl (by rw [h]; exact hrel.2.1)⟩
    · exact ⟨p, hp, Or.inr (by rw [h]; exact hrel.2.2.1)⟩
  · rintro ⟨p, hp, h⟩
    obtain ⟨m, hm, hrel⟩ := sameShape_mem_left hf2 p hp
    rcases h with h | h
    · exact ⟨m, hm, Or.inl (by rw [h, hrel.2.1])⟩
    · exact ⟨m, hm, Or.inr (by rw [h, hrel.2.2.1])⟩

/-- The non-cancel branch of entry close: with at least two entrants carrying an
image, the shuffled pool is paired consecutively into fresh round-1 matches and the
event moves to the voting state in round 1. -/
theorem entryCloseStep_pairs (g0 : GuildState) (now0 : Nat) (order0 : List Nat)
    (hst : g0.event.state = .entry)
    (hnow : g0.event.entry_end_utc ≤ now0)
    (hN : 2 ≤ (g0.entrants.filter hasImage).length) :
    ∃ news : List MatchRow,
      (entryCloseStep g0 now0 order0).matchRows = g0.matchRows ++ news ∧
      List.Forall₂ (fun (p : Nat × Nat) (m : MatchRow) =>
        m.round_index = 1 ∧ m.left_id = p.1 ∧ m.right_id = p.2 ∧
        m.winner_id = none) (pairConsec order0) news ∧
      (entryCloseStep g0 now0 order0).event.state = .voting ∧
      (entryCloseStep g0 now0 order0).event.round_index = 1 ∧
      (entryCloseStep g0 now0 order0).entrants = g0.entrants := by
  have hcond : ¬ ((g0.entrants.filter hasImage).length < 2 ∧
      g0.entrants.length < 2) := by
    intro h
    omega
  obtain ⟨news, hmr, hf2, hev, hent, hch⟩ := foldl_insertMatch_full
    (pairConsec order0) g0 1 (now0 + g0.event.vote_seconds)
  refine ⟨news, ?_, hf2, ?_, ?_, ?_⟩
  · rw [entryCloseStep, if_pos hst, if_neg (Nat.not_lt.mpr hnow), if_neg hcond]
    exact hmr
  · rw [entryCloseStep, if_pos hst, if_neg (Nat.not_lt.mpr hnow), if_neg hcond]
  · rw [entryCloseStep, if_pos hst, if_neg (Nat.not_lt.mpr hnow), if_neg hcond]
  · rw [entryCloseStep, if_pos hst, if_neg (Nat.not_lt.mpr hnow), if_neg hcond]
    exact hent

/-- Right after entry close, the round-1 leftovers are exactly the pool members not
covered by the consecutive pairing. -/
theorem r1Leftovers_init (g1 : GuildState) (news : List MatchRow)
    (order0 : List Nat) (E : List Nat)
    (hmr : g1.matchRows = news)
    (hf2 : List.Forall₂ (fun (p : Nat × Nat) (m : MatchRow) =>
      m.round_index = 1 ∧ m.left_id = p.1 ∧ m.right_id = p.2 ∧
      m.winner_id = none) (pairConsec order0) news)
    (hpool : r1Pool g1.entrants = E) :
    r1Leftovers g1 = E.filter (fun i => !((foughtIds news).contains i)) := by
  have hall := news_round_all _ news _ hf2
  have hrm : roundMatches g1.matchRows 1 = news := by
    rw [hmr]
    exact roundMatches_news news hall
  have hwn : news.filterMap MatchRow.winner_id = [] := by
    rw [List.filterMap_eq_nil_iff]
    intro m hm
    exact (hall m hm).2
  rw [r1Leftovers, hrm, hwn, hpool]
  apply List.filter_congr
  intro i _
  simp

/-- Entry close of an even eligible pool: the invariant opens in round 1 with `N / 2`
undecided matches and no leftover. -/
theorem entryClose_even (g0 : GuildState) (now0 : Nat) (order0 : List Nat)
    (hst : g0.event.state = .entry)
    (hnow : g0.event.entry_end_utc ≤ now0)
    (hmt : g0.matchRows = [])
    (hN : 2 ≤ ((g0.entrants.filter hasImage).map Entrant.id).length)
    (hperm : order0.Perm ((g0.entrants.filter hasImage).map Entrant.id))
    (heven : ((g0.entrants.filter hasImage).map Entrant.id).length % 2 = 0) :
    RoundInv (entryCloseStep g0 now0 order0) 1
      (((g0.entrants.filter hasImage).map Entrant.id).length / 2) 0 := by
  obtain ⟨news, hmr, hf2, hstv, hrd, hent⟩ := entryCloseStep_pairs g0 now0 order0
    hst hnow (by simpa using hN)
  rw [hmt, List.nil_append] at hmr
  have hall := news_round_all _ news _ hf2
  have hund := undecided_news news _ hall
  have hol := hperm.length_eq
  have hlen : news.length =
      ((g0.entrants.filter hasImage).map Entrant.id).length / 2 := by
    have h1 := List.Forall₂.length_eq hf2
    rw [pairConsec_length] at h1
    omega
  have hpool : r1Pool (entryCloseStep g0 now0 order0).entrants =
      (g0.entrants.filter hasImage).map Entrant.id := by
    rw [hent, r1Pool, if_pos hN]
  have hlef : r1Leftovers (entryCloseStep g0 now0 order0) = [] := by
    rw [r1Leftovers_init _ news order0 _ hmr hf2 hpool, List.filter_eq_nil_iff]
    intro i hi hpi
    have hio : i ∈ order0 := hperm.mem_iff.mpr hi
    obtain ⟨p, hp, hip⟩ := pairConsec_cover_even order0
      (by rw [hperm.length_eq]; exact heven) i hio
    have hif : i ∈ foughtIds news := (mem_foughtIds_news news order0 hf2 i).mpr
      ⟨p, hp, hip⟩
    simp [hif] at hpi
  refine ⟨⟨hstv, hrd, Nat.le_refl 1, by omega, ?_, ?_, ?_, ?_⟩, fun _ => hlef⟩
  · rw [hmr, hund.1, hlen]
  · rw [hmr, hund.2]
    rfl
  · rw [hmr]
    intro m hm
    rw [(hall m hm).1]
  · rw [hmr]
    intro m hm w hw
    rw [(hall m hm).2] at hw
    simp at hw

/-- Entry close of an odd eligible pool: the invariant opens in round 1 with `N / 2`
undecided matches and the unshuffled last pool member pending as the leftover. -/
theorem entryClose_odd (g0 : GuildState) (now0 : Nat) (order0 : List Nat)
    (hst : g0.event.state = .entry)
    (hnow : g0.event.entry_end_utc ≤ now0)
    (hmt : g0.matchRows = [])
    (hN : 2 ≤ ((g0.entrants.filter hasImage).map Entrant.id).length)
    (hnd : ((g0.entrants.filter hasImage).map Entrant.id).Nodup)
    (hperm : order0.Perm ((g0.entrants.filter hasImage).map Entrant.id))
    (hodd : ((g0.entrants.filter hasImage).map Entrant.id).length % 2 = 1) :
    ∃ x, RoundInvPending (entryCloseStep g0 now0 order0)
      (((g0.entrants.filter hasImage).map Entrant.id).length / 2) x := by
  obtain ⟨news, hmr, hf2, hstv, hrd, hent⟩ := entryCloseStep_pairs g0 now0 order0
    hst hnow (by simpa using hN)
  rw [hmt, List.nil_append] at hmr
  have hall := news_round_all _ news _ hf2
  have hund := undecided_news news _ hall
  have hol := hperm.length_eq
  have holodd : order0.length % 2 = 1 := by
    rw [hol]
    exact hodd
  have hlen : news.length =
      ((g0.entrants.filter hasImage).map Entrant.id).length / 2 := by
    have h1 := List.Forall₂.length_eq hf2
    rw [pairConsec_length] at h1
    omega
  have hpool : r1Pool (entryCloseStep g0 now0 order0).entrants =
      (g0.entrants.filter hasImage).map Entrant.id := by
    rw [hent, r1Pool, if_pos hN]
  have hndo : order0.Nodup := hperm.nodup_iff.mpr hnd
  obtain ⟨x, hx⟩ := getLast?_isSome order0 (by
    intro h
    rw [h] at holodd
    simp at holodd)
  have hxE : x ∈ (g0.entrants.filter hasImage).map Entrant.id :=
    hperm.mem_iff.mp (getLast?_mem order0 x hx)
  have hlef : r1Leftovers (entryCloseStep g0 now0 order0) = [x] := by
    rw [r1Leftovers_init _ news order0 _ hmr hf2 hpool]
    apply filter_eq_single _ _ hnd x hxE
    intro i hi
    constructor
    · intro hpi
      have hio : i ∈ order0 := hperm.mem_iff.mpr hi
      rcases pairConsec_cover_odd order0 holodd i hio with hl | ⟨p, hp, hip⟩
      · rw [hx] at hl
        injection hl with hl
        exact hl.symm
      · exfalso
        have hif : i ∈ foughtIds news := (mem_foughtIds_news news order0 hf2 i).mpr
          ⟨p, hp, hip⟩
        simp [hif] at hpi
    · intro hix
      subst hix
      have hnf : i ∉ foughtIds news := by
        intro hif
        obtain ⟨p, hp, hip⟩ := (mem_foughtIds_news news order0 hf2 i).mp hif
        have := pairConsec_last_not_mem order0 hndo holodd i hx p hp
        rcases hip with h | h
        · exact this.1 h
        · exact this.2 h
      simp [hnf]
  refine ⟨x, ⟨hstv, hrd, Nat.le_refl 1, by omega, ?_, ?_, ?_, ?_⟩, hlef⟩
  · rw [hmr, hund.1, hlen]
  · rw [hmr, hund.2]
    rfl
  · rw [hmr]
    intro m hm
    rw [(hall m hm).1]
  · rw [hmr]
    intro m hm w hw
    rw [(hall m hm).2] at hw
    simp at hw

/-- C7: for every tournament starting at entry close from `N ≥ 2` eligible
participants (distinct ids, pool shuffled into some order, no matches yet), repeated
application of round resolution — with each round deadline eventually reached and each
match given some outcome, i.e. unequal tallies at resolution, whatever the voting
environment does in between — always reaches the Closed state with a champion within
`ceil(log2 N) + (number of odd-pool corrections)` scheduler ticks. -/
theorem engine_reaches_champion (g0 : GuildState) (now0 : Nat) (order0 : List Nat)
    (hst : g0.event.state = .entry)
    (hnow : g0.event.entry_end_utc ≤ now0)
    (hmt : g0.matchRows = [])
    (hN : 2 ≤ ((g0.entrants.filter hasImage).map Entrant.id).length)
    (hnd : ((g0.entrants.filter hasImage).map Entrant.id).Nodup)
    (hperm : order0.Perm ((g0.entrants.filter hasImage).map Entrant.id)) :
    ClosesWithin (entryCloseStep g0 now0 order0)
      (Nat.clog 2 ((g0.entrants.filter hasImage).map Entrant.id).length +
        oddCorrections ((g0.entrants.filter hasImage).map Entrant.id).length) := by
  set N := ((g0.entrants.filter hasImage).map Entrant.id).length with hNdef
  have htb := tickBound_eq_clog N (by omega)
  by_cases hpar : N % 2 = 0
  · have hinv := entryClose_even g0 now0 order0 hst hnow hmt hN hperm hpar
    apply closes_of_roundInv _ _ 1 (N / 2) 0 hinv
    have h1 : tickBound N = 1 + tickBound (N / 2) := by
      rw [tickBound, if_neg (by omega), if_pos hpar]
    simp only [Nat.add_zero]
    omega
  · have hpar1 : N % 2 = 1 := by omega
    obtain ⟨x, hinv⟩ := entryClose_odd g0 now0 order0 hst hnow hmt hN hnd hperm hpar1
    apply closes_of_pending _ _ (N / 2) x hinv
    have h1 : tickBound N = 2 + tickBound ((N + 1) / 2) := by
      rw [tickBound, if_neg (by omega), if_neg (by omega)]
    have h2 : (N + 1) / 2 = 1 + N / 2 := by omega
    rw [← h2]
    omega

/-- A fresh 2-entrant event, both with an image, at its entry deadline. -/
def gW7 : GuildState :=
  ⟨⟨.entry, 100, 60, 0⟩, [⟨1, 901, some "a"⟩, ⟨2, 902, some "b"⟩], [], [], [], 1, none⟩

theorem engine_reaches_champion_witness :
    ClosesWithin (entryCloseStep gW7 100 [1, 2])
      (Nat.clog 2 ((gW7.entrants.filter hasImage).map Entrant.id).length +
        oddCorrections ((gW7.entrants.filter hasImage).map Entrant.id).length) :=
  engine_reaches_champion gW7 100 [1, 2] rfl (by decide) rfl (by decide) (by decide)
    (by decide)

end Stylo
